import Mathlib

/-!
Verification development for the email-formatting core of the fastmail-mcp
repository (`src/format.ts`): the HTML sanitizer `sanitizeEmailHtml`, the
body extractor `getEmailBody`, and the thread formatter `formatEmailsForLLM`.

The TypeScript code is shallowly embedded as executable Lean definitions.
Strings are modelled as `String` / `List Char`; the mutable cheerio document
is modelled as an immutable rose tree (`Node`), with each cheerio
query-and-mutate pass embedded as a pure tree-rewrite pass, composed in the
source's order.  The external HTML parser/serializer pair used by the source
(`cheerio.load` / `$.html()`) is modelled in fragment form: parsing produces
the node forest of the markup itself, without the `<html><head><body>`
document scaffolding cheerio adds around it (that scaffolding carries no
message content and no property below depends on it).
-/

namespace FastmailFormat

/-- JS `String.prototype.trim` whitespace test, restricted to the ASCII
whitespace characters that occur in this pipeline. -/
def isJsWs (c : Char) : Bool :=
  c = ' ' || c = '\t' || c = '\n' || c = '\r' || c = '\x0b' || c = '\x0c'

/-- Drop leading JS whitespace. -/
def trimLeftL (l : List Char) : List Char := l.dropWhile isJsWs

/-- Drop trailing JS whitespace. -/
def trimRightL (l : List Char) : List Char := (l.reverse.dropWhile isJsWs).reverse

/-- JS `trim` on character lists. -/
def trimL (l : List Char) : List Char := trimRightL (trimLeftL l)

/-- JS `String.prototype.trim`. -/
def jsTrim (s : String) : String := ⟨trimL s.data⟩

/-- Fuel-indexed worker for `replacePair`; the fuel only bounds recursion
depth (one unit per character examined), so `replacePairAux l.length l`
processes all of `l`. -/
def replacePairAux (a b c : Char) : Nat → List Char → List Char
  | 0, l => l
  | _ + 1, [] => []
  | _ + 1, [x] => [x]
  | fuel + 1, x :: y :: rest =>
      if x = a && y = b then c :: replacePairAux a b c fuel rest
      else x :: replacePairAux a b c fuel (y :: rest)

/-- Global replacement of the two-character pattern `a b` by the single
character `c`, scanning left to right without overlap: the embedding of a JS
`str.replace(/\x\y/g, "z")` call with a two-character literal pattern. -/
def replacePair (a b c : Char) (l : List Char) : List Char :=
  replacePairAux a b c l.length l

/-- Embedding of `unescapeJsonString` (format.ts lines 8-15): the five
sequential global replaces `\n`, `\r`, `\t`, `\"`, `\\`, in source order. -/
def unescapeJsonString (s : String) : String :=
  ⟨replacePair '\\' '\\' '\\'
    (replacePair '\\' '"' '"'
      (replacePair '\\' 't' '\t'
        (replacePair '\\' 'r' '\r'
          (replacePair '\\' 'n' '\n' s.data))))⟩

/-- ASCII lower-casing of a character (for case-insensitive regex matching
and for the HTML parser's tag-name normalization). -/
def lcChar (c : Char) : Char :=
  if 'A' ≤ c && c ≤ 'Z' then Char.ofNat (c.toNat + 32) else c

/-- Exact literal-prefix test on character lists. -/
def isPrefB : List Char → List Char → Bool
  | [], _ => true
  | _ :: _, [] => false
  | p :: ps, c :: cs => p = c && isPrefB ps cs

/-- Case-insensitive literal-prefix test (ASCII). -/
def isPrefCIB : List Char → List Char → Bool
  | [], _ => true
  | _ :: _, [] => false
  | p :: ps, c :: cs => lcChar p = lcChar c && isPrefCIB ps cs

/-- Earliest occurrence of the exact literal `pat` in `l`; returns the suffix
of `l` that follows that occurrence. -/
def findAfterLit (pat : List Char) : List Char → Option (List Char)
  | [] => if pat = [] then some [] else none
  | c :: cs =>
      if isPrefB pat (c :: cs) then some ((c :: cs).drop pat.length)
      else findAfterLit pat cs

/-- Case-insensitive variant of `findAfterLit`. -/
def findAfterLitCI (pat : List Char) : List Char → Option (List Char)
  | [] => if pat = [] then some [] else none
  | c :: cs =>
      if isPrefCIB pat (c :: cs) then some ((c :: cs).drop pat.length)
      else findAfterLitCI pat cs

/-- Match the opening of an MSO conditional comment at the head of `l`:
the literal `<!--[if` (case-insensitive) followed by `[^\]]*` and `]>`.
Returns the suffix after the `]>` when the opening matches. -/
def matchMsoOpen (l : List Char) : Option (List Char) :=
  if isPrefCIB "<!--[if".data l then
    match (l.drop 7).dropWhile (fun x => x ≠ ']') with
    | ']' :: '>' :: rest => some rest
    | _ => none
  else none

/-- Scanner for the first MSO regex (format.ts line 28):
`<!--\[if[^\]]*\]>[\s\S]*?<!\[endif\]-->` with the `g` and `i` flags.
A matched span is deleted; an unmatched position is copied and the scan
advances one character, exactly as the JS global replace does. -/
def stripMso1Aux : Nat → List Char → List Char
  | 0, l => l
  | _ + 1, [] => []
  | fuel + 1, c :: cs =>
      match matchMsoOpen (c :: cs) with
      | some afterOpen =>
          match findAfterLitCI "<![endif]-->".data afterOpen with
          | some rest => stripMso1Aux fuel rest
          | none => c :: stripMso1Aux fuel cs
      | none => c :: stripMso1Aux fuel cs

/-- Match the opening of the bare (non-comment) conditional form at the head
of `l`: `<![if` (case-insensitive), `[^\]]*`, `]>`. -/
def matchBareIfOpen (l : List Char) : Option (List Char) :=
  if isPrefCIB "<![if".data l then
    match (l.drop 5).dropWhile (fun x => x ≠ ']') with
    | ']' :: '>' :: rest => some rest
    | _ => none
  else none

/-- Scanner for the second MSO regex (format.ts line 30):
`<!\[if[^\]]*\]>` with `g` and `i` flags. -/
def stripMso2Aux : Nat → List Char → List Char
  | 0, l => l
  | _ + 1, [] => []
  | fuel + 1, c :: cs =>
      match matchBareIfOpen (c :: cs) with
      | some rest => stripMso2Aux fuel rest
      | none => c :: stripMso2Aux fuel cs

/-- Scanner deleting every occurrence of a case-insensitive literal, used for
the third MSO regex (format.ts line 31): `<!--<!\[endif\]-->` with `g`, `i`. -/
def stripLitCIAux (pat : List Char) : Nat → List Char → List Char
  | 0, l => l
  | _ + 1, [] => []
  | fuel + 1, c :: cs =>
      if isPrefCIB pat (c :: cs) then stripLitCIAux pat fuel ((c :: cs).drop pat.length)
      else c :: stripLitCIAux pat fuel cs

/-- Embedding of the three MSO-conditional-comment strips
(format.ts lines 28-31), in source order. -/
def stripMsoBlocks (s : String) : String :=
  let l1 := stripMso1Aux s.data.length s.data
  let l2 := stripMso2Aux l1.length l1
  ⟨stripLitCIAux "<!--<![endif]-->".data l2.length l2⟩

/-- Scanner for the HTML-comment strip on the serialized output
(format.ts line 120): `<!--[\s\S]*?-->` with the `g` flag (case-sensitive).
The lazy body matches up to the earliest following `-->`. -/
def stripHtmlCommentsAux : Nat → List Char → List Char
  | 0, l => l
  | _ + 1, [] => []
  | fuel + 1, c :: cs =>
      if isPrefB "<!--".data (c :: cs) then
        match findAfterLit "-->".data ((c :: cs).drop 4) with
        | some rest => stripHtmlCommentsAux fuel rest
        | none => c :: stripHtmlCommentsAux fuel cs
      else c :: stripHtmlCommentsAux fuel cs

/-- The HTML-comment strip as a string function. -/
def stripHtmlComments (s : String) : String :=
  ⟨stripHtmlCommentsAux s.data.length s.data⟩

/-- Fuel-indexed worker for `collapseNewlines`; each step consumes at least
one character, so `collapseNlAux l.length l` processes all of `l`. -/
def collapseNlAux : Nat → List Char → List Char
  | 0, l => l
  | _ + 1, [] => []
  | fuel + 1, c :: cs =>
      if c = '\n' && cs.take 2 = ['\n', '\n'] then
        '\n' :: '\n' :: collapseNlAux fuel (cs.dropWhile (fun x => x = '\n'))
      else c :: collapseNlAux fuel cs

/-- Embedding of the blank-line collapse (format.ts line 123):
`result.replace(/\n{3,}/g, "\n\n")`.  A maximal run of three or more
newline characters is replaced by exactly two newlines; shorter runs are
copied unchanged. -/
def collapseNewlines (l : List Char) : List Char := collapseNlAux l.length l

/-- Final post-processing of the serialized document (format.ts lines
119-125): strip HTML comments, collapse newline runs, trim. -/
def finalizeSerialized (s : String) : String :=
  jsTrim ⟨collapseNewlines (stripHtmlComments s).data⟩

/-- Global single-character replacement on character lists: every
occurrence of `c` becomes `rep`, all other characters are kept. -/
def replaceCharL (c : Char) (rep : List Char) (l : List Char) : List Char :=
  (l.map (fun x => if x = c then rep else [x])).flatten

/-- Global single-character replacement `str.replace(/c/g, rep)`. -/
def replaceCharStr (c : Char) (rep : String) (s : String) : String :=
  ⟨replaceCharL c rep.data s.data⟩

/-- Embedding of `escapeXmlAttr` (format.ts lines 170-176): the four
sequential global replaces for `&`, `"`, `<`, `>`, in source order. -/
def escapeXmlAttr (s : String) : String :=
  replaceCharStr '>' "&gt;"
    (replaceCharStr '<' "&lt;"
      (replaceCharStr '"' "&quot;"
        (replaceCharStr '&' "&amp;" s)))

/-- Embedding of `escapeXmlText` (format.ts lines 181-183): sequential
global replaces for `&`, `<`, `>` (the double quote is not escaped). -/
def escapeXmlText (s : String) : String :=
  replaceCharStr '>' "&gt;"
    (replaceCharStr '<' "&lt;"
      (replaceCharStr '&' "&amp;" s))

/-- JS `Array.prototype.join` with a separator. -/
def joinSep (sep : String) : List String → String
  | [] => ""
  | [x] => x
  | x :: y :: rest => x ++ sep ++ joinSep sep (y :: rest)

/-- Boolean substring test (used only to state concrete properties of
concrete outputs). -/
def substrAux (nd : List Char) : List Char → Bool
  | [] => isPrefB nd []
  | c :: cs => isPrefB nd (c :: cs) || substrAux nd cs

/-- Boolean substring test on strings. -/
def substrB (needle hay : String) : Bool := substrAux needle.data hay.data

/-- Boolean string-prefix test. -/
def strStarts (p s : String) : Bool := isPrefB p.data s.data

/-! The document tree.  An element node has a (lower-cased) tag name, an
ordered attribute list (first occurrence wins on lookup, as in the parsed
DOM), and an ordered child list; text and comment nodes are leaves. -/

inductive Node where
  | elem (tag : String) (attrs : List (String × String)) (children : List Node)
  | text (s : String)
  | comment (s : String)

/-- Attribute lookup, `$(el).attr(name)`. -/
def getAttr (attrs : List (String × String)) (a : String) : Option String :=
  (attrs.find? (fun p => p.1 = a)).map (fun p => p.2)

mutual

/-- Whether tag `t` occurs on the node itself or any descendant element
(the `$(el).find(t)` / selector-match test, extended to the node itself). -/
def hasTagN (t : String) : Node → Bool
  | .elem tg _ cs => tg = t || hasTagL t cs
  | _ => false

/-- Whether tag `t` occurs anywhere in a forest. -/
def hasTagL (t : String) : List Node → Bool
  | [] => false
  | n :: ns => hasTagN t n || hasTagL t ns

end

/-- HTML void elements (serialized without a closing tag, never take
children when parsed). -/
def voidTags : List String :=
  ["area", "base", "br", "col", "embed", "hr", "img", "input", "link",
   "meta", "param", "source", "track", "wbr"]

/-- Serializer escaping for attribute values (dom-serializer escapes `&`
and `"` in attribute position). -/
def escAttrSer (s : String) : String :=
  replaceCharStr '"' "&quot;" (replaceCharStr '&' "&amp;" s)

/-- Serializer escaping for text nodes (`&`, `<`, `>`). -/
def escTextSer (s : String) : String :=
  replaceCharStr '>' "&gt;" (replaceCharStr '<' "&lt;" (replaceCharStr '&' "&amp;" s))

/-- Serialize an attribute list. -/
def attrsSer (a : List (String × String)) : String :=
  String.join (a.map (fun p => " " ++ p.1 ++ "=\"" ++ escAttrSer p.2 ++ "\""))

mutual

/-- Serialize one node (the model of `$.html()` restricted to a node). -/
def serializeN : Node → String
  | .text s => escTextSer s
  | .comment s => "<!--" ++ s ++ "-->"
  | .elem t a cs =>
      if voidTags.contains t then "<" ++ t ++ attrsSer a ++ ">"
      else "<" ++ t ++ attrsSer a ++ ">" ++ serializeL cs ++ "</" ++ t ++ ">"

/-- Serialize a forest. -/
def serializeL : List Node → String
  | [] => ""
  | n :: ns => serializeN n ++ serializeL ns

end

/-- Drop leading all-whitespace text nodes and left-trim the first remaining
text node: the node-level effect of trimming the serialized markup on the
left before re-parsing it. -/
def trimNodesLeft : List Node → List Node
  | .text s :: rest =>
      let s' : String := ⟨trimLeftL s.data⟩
      if s' = "" then trimNodesLeft rest else .text s' :: rest
  | l => l

/-- Right-trim worker on a reversed forest. -/
def trimNodesRightAux : List Node → List Node
  | .text s :: rest =>
      let s' : String := ⟨trimRightL s.data⟩
      if s' = "" then trimNodesRightAux rest else .text s' :: rest
  | l => l

/-- Node-level counterpart of `html().trim()` followed by re-parsing: trims
whitespace at both ends of a forest's serialized markup. -/
def trimNodeList (l : List Node) : List Node :=
  (trimNodesRightAux (trimNodesLeft l).reverse).reverse

mutual

/-- Collect the contributions of all `td`/`th` descendant cells of a node,
in document (pre)order: for each cell whose serialized inner markup trims
to a non-empty string, its trimmed child forest (format.ts lines 73-79). -/
def cellsN : Node → List (List Node)
  | .elem t _ cs =>
      (if t = "td" || t = "th" then
        (if jsTrim (serializeL cs) = "" then [] else [trimNodeList cs])
      else []) ++ cellsL cs
  | _ => []

/-- Cell contributions of a forest. -/
def cellsL : List Node → List (List Node)
  | [] => []
  | n :: ns => cellsN n ++ cellsL ns

end

/-- Replacement forest for an unwrapped layout table: the cell contributions
joined by newline text nodes (`cellContents.join("\n")` re-parsed,
format.ts line 80). -/
def joinCellGroups : List (List Node) → List Node
  | [] => []
  | [g] => g
  | g :: g2 :: rest => g ++ Node.text "\n" :: joinCellGroups (g2 :: rest)

/-- The data-table test of format.ts lines 66-69, evaluated on a table's
attribute list and (already resolved) child forest: a `th` descendant, or
`role="grid"`, or `role="table"`. -/
def isDataTable (a : List (String × String)) (cs : List Node) : Bool :=
  hasTagL "th" cs || getAttr a "role" == some "grid" || getAttr a "role" == some "table"

mutual

/-- The layout-table unwrapping rule (format.ts lines 59-84).  The source
iterates `$("table")` to a fixed point, skipping any table that still
contains a nested table; that fixed point resolves tables innermost-first,
which this embedding realizes as a post-order rewrite.  A table whose
resolved children still contain a table (i.e. a retained nested table) is
skipped forever by the source loop and therefore kept; otherwise it is kept
exactly when the data-table test passes, and unwrapped into its joined cell
contents when it fails. -/
def unwrapTablesN : Node → List Node
  | .text s => [.text s]
  | .comment s => [.comment s]
  | .elem t a cs =>
      let cs' := unwrapTablesL cs
      if t = "table" then
        if hasTagL "table" cs' then [.elem t a cs']
        else if isDataTable a cs' then [.elem t a cs']
        else joinCellGroups (cellsL cs')
      else [.elem t a cs']

/-- Layout-table unwrapping on a forest. -/
def unwrapTablesL : List Node → List Node
  | [] => []
  | n :: ns => unwrapTablesN n ++ unwrapTablesL ns

end

mutual

/-- Generic subtree-removal pass: `$(sel).remove()` for a selector that
tests an element's tag and attributes. -/
def removeIfN (p : String → List (String × String) → Bool) : Node → List Node
  | .text s => [.text s]
  | .comment s => [.comment s]
  | .elem t a cs => if p t a then [] else [.elem t a (removeIfL p cs)]

/-- Subtree removal on a forest. -/
def removeIfL (p : String → List (String × String) → Bool) : List Node → List Node
  | [] => []
  | n :: ns => removeIfN p n ++ removeIfL p ns

end

mutual

/-- Presentational-attribute stripping (format.ts lines 87-96): drop the
listed attributes from every element. -/
def stripAttrsN (bad : List String) : Node → Node
  | .elem t a cs => .elem t (a.filter (fun p => !(bad.contains p.1))) (stripAttrsL bad cs)
  | n => n

/-- Attribute stripping on a forest. -/
def stripAttrsL (bad : List String) : List Node → List Node
  | [] => []
  | n :: ns => stripAttrsN bad n :: stripAttrsL bad ns

end

mutual

/-- Unwrapping pass for the table-structure wrappers (format.ts lines
98-113): an element whose tag is in `tags` and which has no `table`
ancestor (`closest("table").length === 0`, tracked here by the `inTable`
flag) is replaced by its own children; every other element is kept with
its children processed. -/
def unwrapOrphanN (tags : List String) (inTable : Bool) : Node → List Node
  | .text s => [.text s]
  | .comment s => [.comment s]
  | .elem t a cs =>
      let cs' := unwrapOrphanL tags (inTable || t = "table") cs
      if tags.contains t && !inTable then cs'
      else [.elem t a cs']

/-- Unwrapping pass on a forest. -/
def unwrapOrphanL (tags : List String) (inTable : Bool) : List Node → List Node
  | [] => []
  | n :: ns => unwrapOrphanN tags inTable n ++ unwrapOrphanL tags inTable ns

end

mutual

/-- The `center` pass (format.ts lines 114-116): `$("center").each`
iterates a static snapshot of the document's center elements, replacing
each still-attached one with its re-parsed inner markup.  When the
outermost center on a path is replaced, its descendants are detached, so
their later visits mutate nothing, while the replacement markup is a
fresh copy of its children whose own (copied) center elements are not in
the snapshot and survive the pass.  Tree-level effect: a center with no
center ancestor is replaced by its children taken verbatim (left
unprocessed); every other node is kept with its children processed. -/
def unwrapCenterN : Node → List Node
  | .text s => [.text s]
  | .comment s => [.comment s]
  | .elem t a cs =>
      if t = "center" then cs
      else [.elem t a (unwrapCenterL cs)]

/-- The `center` pass on a forest. -/
def unwrapCenterL : List Node → List Node
  | [] => []
  | n :: ns => unwrapCenterN n ++ unwrapCenterL ns

end

/-- The elements removed unconditionally with their subtrees
(format.ts line 36). -/
def badActiveTags : List String :=
  ["script", "style", "noscript", "iframe", "object", "embed", "applet"]

/-- Hidden-element test for `[style*='display:none']` /
`[style*='display: none']` (format.ts line 42): literal substring match on
the `style` attribute. -/
def hiddenDisplayP (_t : String) (a : List (String × String)) : Bool :=
  match getAttr a "style" with
  | some v => substrB "display:none" v || substrB "display: none" v
  | none => false

/-- Hidden-element test for `visibility:hidden` (format.ts line 43). -/
def hiddenVisibilityP (_t : String) (a : List (String × String)) : Bool :=
  match getAttr a "style" with
  | some v => substrB "visibility:hidden" v || substrB "visibility: hidden" v
  | none => false

/-- Hidden-element test for the boolean `hidden` attribute
(format.ts line 44). -/
def hiddenAttrP (_t : String) (a : List (String × String)) : Bool :=
  (getAttr a "hidden").isSome

/-- Tracking-pixel test (format.ts lines 47-53): an `img` whose `width` and
`height` attributes are both `"1"` or both `"0"`. -/
def trackingPixelP (t : String) (a : List (String × String)) : Bool :=
  t = "img" &&
    ((getAttr a "width" == some "1" && getAttr a "height" == some "1") ||
     (getAttr a "width" == some "0" && getAttr a "height" == some "0"))

/-- The presentational attributes stripped by format.ts lines 87-96. -/
def presentationalAttrs : List String :=
  ["style", "class", "bgcolor", "align", "valign", "cellpadding",
   "cellspacing", "border"]

/-- The full tree-rewriting portion of `sanitizeEmailHtml`
(format.ts lines 36-116), with each pass in source order. -/
def sanitizeNodes (doc : List Node) : List Node :=
  let d1 := removeIfL (fun t _ => badActiveTags.contains t) doc
  let d2 := removeIfL (fun t _ => t = "head") d1
  let d3 := removeIfL hiddenDisplayP d2
  let d4 := removeIfL hiddenVisibilityP d3
  let d5 := removeIfL hiddenAttrP d4
  let d6 := removeIfL trackingPixelP d5
  let d7 := unwrapTablesL d6
  let d8 := stripAttrsL presentationalAttrs d7
  let d9 := unwrapOrphanL ["tbody", "thead", "tfoot"] false d8
  let d10 := unwrapOrphanL ["tr"] false d9
  let d11 := unwrapOrphanL ["td", "th"] false d10
  unwrapCenterL d11

/-! The HTML parser.  The source uses cheerio's permissive parser (an
external library); it is modelled here as a recursive-descent tag-soup
parser over the fragment itself.  The model normalizes tag and attribute
names to lower case, decodes the basic named character references, treats
unmatched close tags permissively (implicitly closing open elements or
being dropped at top level), and never fails.  It elides the implied
document scaffolding (`html`/`head`/`body`, implied `tbody`) that a
browser-grade parser inserts, which carries no message content; the
tree-level theorems below quantify over all trees and so cover the trees a
browser-grade parser produces as well. -/

/-- ASCII letter test. -/
def isAsciiLetter (c : Char) : Bool :=
  ('a' ≤ c && c ≤ 'z') || ('A' ≤ c && c ≤ 'Z')

/-- Characters allowed in tag names by the model. -/
def isNameChar (c : Char) : Bool :=
  isAsciiLetter c || c.isDigit || c = '-' || c = ':'

/-- Fuel-indexed worker for `decodeEntities`. -/
def decodeEntitiesAux : Nat → List Char → List Char
  | 0, l => l
  | _ + 1, [] => []
  | fuel + 1, '&' :: rest =>
      if isPrefB "amp;".data rest then '&' :: decodeEntitiesAux fuel (rest.drop 4)
      else if isPrefB "lt;".data rest then '<' :: decodeEntitiesAux fuel (rest.drop 3)
      else if isPrefB "gt;".data rest then '>' :: decodeEntitiesAux fuel (rest.drop 3)
      else if isPrefB "quot;".data rest then '"' :: decodeEntitiesAux fuel (rest.drop 5)
      else if isPrefB "apos;".data rest then '\'' :: decodeEntitiesAux fuel (rest.drop 5)
      else if isPrefB "#39;".data rest then '\'' :: decodeEntitiesAux fuel (rest.drop 4)
      else '&' :: decodeEntitiesAux fuel rest
  | fuel + 1, c :: rest => c :: decodeEntitiesAux fuel rest

/-- Decode the basic named character references in text and attribute
values. -/
def decodeEntities (l : List Char) : List Char := decodeEntitiesAux l.length l

/-- Parse the attribute segment of an open tag, up to and including the
closing `>` (or `/>`).  Returns the attribute list, a self-closing flag,
and the remaining input. -/
def parseAttrs : Nat → List Char → (List (String × String) × Bool × List Char)
  | 0, l => ([], false, l)
  | fuel + 1, l =>
      match l.dropWhile isJsWs with
      | [] => ([], false, [])
      | '>' :: rest => ([], false, rest)
      | '/' :: '>' :: rest => ([], true, rest)
      | '/' :: rest => parseAttrs fuel rest
      | c :: rest =>
          let nm := (c :: rest).takeWhile
            (fun x => !(isJsWs x) && x ≠ '=' && x ≠ '>' && x ≠ '/')
          if nm.isEmpty then parseAttrs fuel rest
          else
            let aname : String := ⟨nm.map lcChar⟩
            let afterWs := ((c :: rest).drop nm.length).dropWhile isJsWs
            match afterWs with
            | '=' :: r2 =>
                match r2.dropWhile isJsWs with
                | '"' :: r4 =>
                    let v := r4.takeWhile (fun x => x ≠ '"')
                    let (as_, sc, rest') := parseAttrs fuel ((r4.drop v.length).drop 1)
                    ((aname, ⟨decodeEntities v⟩) :: as_, sc, rest')
                | '\'' :: r4 =>
                    let v := r4.takeWhile (fun x => x ≠ '\'')
                    let (as_, sc, rest') := parseAttrs fuel ((r4.drop v.length).drop 1)
                    ((aname, ⟨decodeEntities v⟩) :: as_, sc, rest')
                | r3 =>
                    let v := r3.takeWhile (fun x => !(isJsWs x) && x ≠ '>')
                    let (as_, sc, rest') := parseAttrs fuel (r3.drop v.length)
                    ((aname, ⟨decodeEntities v⟩) :: as_, sc, rest')
            | rest2 =>
                let (as_, sc, rest') := parseAttrs fuel rest2
                ((aname, "") :: as_, sc, rest')

/-- Try to consume a close tag `</tag ...>` for the given tag at the head
of the input; returns the input after it on success. -/
def matchCloseTag (tag : String) (l : List Char) : Option (List Char) :=
  match l with
  | '<' :: '/' :: r =>
      let nm := r.takeWhile isNameChar
      if (⟨nm.map lcChar⟩ : String) = tag then
        some (((r.drop nm.length).dropWhile (fun x => x ≠ '>')).drop 1)
      else none
  | _ => none

/-- Parse a sibling sequence of nodes; stops (without consuming) at a close
tag or at the end of input. -/
def parseManyAux : Nat → List Char → (List Node × List Char)
  | 0, l => ([], l)
  | _ + 1, [] => ([], [])
  | fuel + 1, '<' :: rest =>
      match rest with
      | [] => ([.text "<"], [])
      | '/' :: _ => ([], '<' :: rest)
      | '!' :: r1 =>
          if isPrefB "--".data r1 then
            let body := r1.drop 2
            match findAfterLit "-->".data body with
            | some after =>
                let content := body.take (body.length - after.length - 3)
                let (ns, rest') := parseManyAux fuel after
                (.comment ⟨content⟩ :: ns, rest')
            | none => ([.comment ⟨body⟩], [])
          else
            let content := r1.takeWhile (fun x => x ≠ '>')
            let (ns, rest') := parseManyAux fuel ((r1.drop content.length).drop 1)
            (.comment ⟨content⟩ :: ns, rest')
      | c :: _ =>
          if isAsciiLetter c then
            let nm := rest.takeWhile isNameChar
            let tag : String := ⟨nm.map lcChar⟩
            let (attrs, selfClose, afterTag) := parseAttrs fuel (rest.drop nm.length)
            if voidTags.contains tag || selfClose then
              let (ns, rest') := parseManyAux fuel afterTag
              (.elem tag attrs [] :: ns, rest')
            else
              let (children, afterChildren) := parseManyAux fuel afterTag
              match matchCloseTag tag afterChildren with
              | some afterClose =>
                  let (ns, rest') := parseManyAux fuel afterClose
                  (.elem tag attrs children :: ns, rest')
              | none =>
                  let (ns, rest') := parseManyAux fuel afterChildren
                  (.elem tag attrs children :: ns, rest')
          else
            let (ns, rest') := parseManyAux fuel rest
            (.text "<" :: ns, rest')
  | fuel + 1, c :: rest =>
      let t := (c :: rest).takeWhile (fun x => x ≠ '<')
      let (ns, rest') := parseManyAux fuel ((c :: rest).drop t.length)
      (.text ⟨decodeEntities t⟩ :: ns, rest')

/-- Top-level parse driver: parses sibling sequences, dropping any stray
close tags between them. -/
def parseTopAux : Nat → List Char → List Node
  | 0, _ => []
  | fuel + 1, l =>
      let (ns, rest) := parseManyAux (2 * l.length + 4) l
      match rest with
      | [] => ns
      | _ :: _ =>
          ns ++ parseTopAux fuel ((rest.dropWhile (fun x => x ≠ '>')).drop 1)

/-- The model of `cheerio.load` in fragment form. -/
def parseHtml (s : String) : List Node := parseTopAux (s.data.length + 1) s.data

/-- Embedding of `sanitizeEmailHtml` (format.ts lines 22-126): unescape the
JSON string escapes, strip the MSO conditional blocks, parse, run the tree
passes, serialize, strip HTML comments, collapse newline runs, trim. -/
def sanitizeEmailHtml (html : String) : String :=
  let s1 := unescapeJsonString html
  let s2 := stripMsoBlocks s1
  finalizeSerialized (serializeL (sanitizeNodes (parseHtml s2)))

/-! The message data model (spec section 3), as consumed by `getEmailBody`
and `formatEmailsForLLM`.  Optional fields are `Option`; timestamps are
epoch milliseconds (`Int`); `keywords` models the JMAP keyword object with
its four consulted flags (`$seen`, `$flagged`, `$answered`, `$draft`); a
missing keyword object or flag reads as `false`, matching the source's
truthiness checks.  The `from` field is named `fromAddrs` (`from` is a Lean
keyword), and similarly for the other address lists. -/

structure EmailAddress where
  name : Option String
  email : String

structure PartRef where
  partId : String

structure BodyValue where
  value : String

structure Keywords where
  seen : Bool
  flagged : Bool
  answered : Bool
  draft : Bool

structure EmailMsg where
  id : String
  threadId : Option String
  subject : Option String
  fromAddrs : Option (List EmailAddress)
  toAddrs : Option (List EmailAddress)
  ccAddrs : Option (List EmailAddress)
  bccAddrs : Option (List EmailAddress)
  replyToAddrs : Option (List EmailAddress)
  senderAddrs : Option (List EmailAddress)
  receivedAt : Option Int
  sentAt : Option Int
  keywords : Option Keywords
  hasAttachment : Bool
  htmlBody : Option (List PartRef)
  textBody : Option (List PartRef)
  bodyValues : Option (List (String × BodyValue))

/-- Pad a (non-negative) integer to two digits. -/
def pad2 (n : Int) : String := (if n < 10 then "0" else "") ++ toString n

/-- Pad to three digits. -/
def pad3 (n : Int) : String :=
  (if n < 10 then "00" else if n < 100 then "0" else "") ++ toString n

/-- Pad to four digits. -/
def pad4 (n : Int) : String :=
  (if n < 10 then "000" else if n < 100 then "00" else if n < 1000 then "0" else "") ++
    toString n

/-- Model of `new Date(ms).toISOString()` on epoch milliseconds, via the
standard civil-from-days conversion. -/
def toISOString (ms : Int) : String :=
  let days := ms.ediv 86400000
  let msod := ms.emod 86400000
  let z := days + 719468
  let era := z.ediv 146097
  let doe := z.emod 146097
  let yoe := (doe - doe.ediv 1460 + doe.ediv 36524 - doe.ediv 146096).ediv 365
  let y := yoe + era * 400
  let doy := doe - (365 * yoe + yoe.ediv 4 - yoe.ediv 100)
  let mp := (5 * doy + 2).ediv 153
  let d := doy - (153 * mp + 2).ediv 5 + 1
  let m := mp + (if mp < 10 then 3 else -9)
  let yr := y + (if m ≤ 2 then 1 else 0)
  pad4 yr ++ "-" ++ pad2 m ++ "-" ++ pad2 d ++ "T" ++
    pad2 (msod.ediv 3600000) ++ ":" ++ pad2 ((msod.ediv 60000).emod 60) ++ ":" ++
    pad2 ((msod.ediv 1000).emod 60) ++ "." ++ pad3 (msod.emod 1000) ++ "Z"

/-- Lookup in the `bodyValues` map, `email.bodyValues[part.partId]`. -/
def lookupBV (bvs : List (String × BodyValue)) (pid : String) : Option BodyValue :=
  (bvs.find? (fun p => p.1 = pid)).map (fun p => p.2)

/-- The body-part values that resolve to a truthy (non-empty) string, in
part order: the loop of format.ts lines 139-144 / 152-158. -/
def resolvedValues (bvs : List (String × BodyValue)) (parts : List PartRef) : List String :=
  parts.filterMap (fun p =>
    match lookupBV bvs p.partId with
    | some b => if b.value = "" then none else some b.value
    | none => none)

/-- Embedding of `getEmailBody` (format.ts lines 133-165). -/
def getEmailBody (e : EmailMsg) : String :=
  match e.bodyValues with
  | none => ""
  | some bvs =>
      let htmlParts :=
        match e.htmlBody with
        | some l => if l.length > 0 then resolvedValues bvs l else []
        | none => []
      if htmlParts.length > 0 then sanitizeEmailHtml (joinSep "\n" htmlParts)
      else
        let textParts :=
          match e.textBody with
          | some l => if l.length > 0 then resolvedValues bvs l else []
          | none => []
        if textParts.length > 0 then jsTrim (joinSep "\n" textParts)
        else ""

/-- One `<address ... />` row (format.ts lines 194-197); a missing or empty
`name` omits the `name` attribute. -/
def addressTag (addr : EmailAddress) : String :=
  let nameAttr :=
    match addr.name with
    | some n => if n = "" then "" else " name=\"" ++ escapeXmlAttr n ++ "\""
    | none => ""
  "    <address" ++ nameAttr ++ " email=\"" ++ escapeXmlAttr addr.email ++ "\" />"

/-- Embedding of `formatAddressNodes` (format.ts lines 188-200). -/
def formatAddressNodes (addresses : Option (List EmailAddress)) (tagName : String) :
    Option String :=
  match addresses with
  | none => none
  | some [] => none
  | some l =>
      some ("  <" ++ tagName ++ ">\n" ++ joinSep "\n" (l.map addressTag) ++
        "\n  </" ++ tagName ++ ">")

/-- Read one keyword flag with the source's truthiness semantics
(`email.keywords?.$flag`). -/
def kwGet (e : EmailMsg) (f : Keywords → Bool) : Bool :=
  match e.keywords with
  | some k => f k
  | none => false

/-- The `flags` array of format.ts lines 217-221, in push order. -/
def statusFlags (e : EmailMsg) : List String :=
  (if !(kwGet e Keywords.seen) then ["unread"] else []) ++
  (if kwGet e Keywords.flagged then ["flagged"] else []) ++
  (if kwGet e Keywords.answered then ["replied"] else []) ++
  (if kwGet e Keywords.draft then ["draft"] else [])

/-- The `attrs` array of the email opening tag (format.ts lines 209-224),
in push order. -/
def emailAttrs (e : EmailMsg) : List String :=
  ["id=\"" ++ escapeXmlAttr e.id ++ "\""] ++
  (match e.receivedAt with
   | some t => ["date=\"" ++ toISOString t ++ "\""]
   | none =>
      match e.sentAt with
      | some t => ["date=\"" ++ toISOString t ++ "\""]
      | none => []) ++
  (if (statusFlags e).length > 0 then
    ["status=\"" ++ joinSep ", " (statusFlags e) ++ "\""]
   else []) ++
  (if e.hasAttachment then ["attachments=\"yes\""] else [])

/-- Embedding of `formatEmailXml` (format.ts lines 205-259): the `lines`
array, joined by newlines. -/
def formatEmailXml (e : EmailMsg) : String :=
  let lines : List String :=
    ["<email " ++ joinSep " " (emailAttrs e) ++ ">"] ++
    (formatAddressNodes e.fromAddrs "from").toList ++
    (formatAddressNodes e.toAddrs "to").toList ++
    (formatAddressNodes e.ccAddrs "cc").toList ++
    (formatAddressNodes e.bccAddrs "bcc").toList ++
    (formatAddressNodes e.replyToAddrs "reply_to").toList ++
    (formatAddressNodes e.senderAddrs "sender").toList ++
    (match e.subject with
     | some s => if s = "" then [] else ["  <subject>" ++ escapeXmlText s ++ "</subject>"]
     | none => []) ++
    ["  <body>\n" ++ getEmailBody e ++ "\n  </body>"] ++
    ["</email>"]
  joinSep "\n" lines

/-- The grouping key `email.threadId || email.id` (format.ts line 270):
a missing or empty `threadId` falls back to `id`. -/
def effKey (e : EmailMsg) : String :=
  match e.threadId with
  | some t => if t = "" then e.id else t
  | none => e.id

/-- The comparator key `new Date(a.receivedAt || a.sentAt || 0).getTime()`
(format.ts lines 280-281): `receivedAt` if present, else `sentAt`, else
epoch 0. -/
def effTime (e : EmailMsg) : Int :=
  match e.receivedAt with
  | some t => t
  | none =>
      match e.sentAt with
      | some t => t
      | none => 0

/-- Append a message to its group, or open a new group at the end: the
semantics of the insertion-ordered `Map` filling loop of format.ts
lines 269-275. -/
def insertGroup (acc : List (String × List EmailMsg)) (k : String) (e : EmailMsg) :
    List (String × List EmailMsg) :=
  match acc with
  | [] => [(k, [e])]
  | (k', es) :: rest =>
      if k' = k then (k', es ++ [e]) :: rest else (k', es) :: insertGroup rest k e

/-- The thread map as an insertion-ordered association list. -/
def groupEmails (emails : List EmailMsg) : List (String × List EmailMsg) :=
  emails.foldl (fun acc e => insertGroup acc (effKey e) e) []

/-- Stable insertion of a message into an accumulator sorted ascending by
`effTime`: the new message goes after every message with a key less than
or equal to its own. -/
def insertByTime (e : EmailMsg) : List EmailMsg → List EmailMsg
  | [] => [e]
  | x :: xs => if effTime x ≤ effTime e then x :: insertByTime e xs else e :: x :: xs

/-- The within-thread sort of format.ts lines 278-284.  The source calls
`Array.prototype.sort` (stable per the JS specification) with the
comparator `dateA - dateB`; a stable ascending sort by `effTime` is
realized here as left-to-right stable insertion, which computes the same
list as any stable sort with that comparator. -/
def sortByTime (l : List EmailMsg) : List EmailMsg :=
  l.foldl (fun acc e => insertByTime e acc) []

/-- One `<thread>` block (format.ts line 291).  Note the source emits the
thread id raw, without `escapeXmlAttr`. -/
def renderThread (k : String) (es : List EmailMsg) : String :=
  "<thread id=\"" ++ k ++ "\">\n" ++ joinSep "\n" (es.map formatEmailXml) ++ "\n</thread>"

/-- Embedding of `formatEmailsForLLM` (format.ts lines 265-295): group by
thread key, sort each group by time, render, join with blank lines. -/
def formatEmailsForLLM (emails : List EmailMsg) : String :=
  let sorted := (groupEmails emails).map (fun g => (g.1, sortByTime g.2))
  joinSep "\n\n" (sorted.map (fun g => renderThread g.1 g.2))

/-! Specification-side definitions.  These are written from the spec's and
claims' wording (not from the source) and are compared against the embedded
source functions by the theorems below. -/

/-- Character-level attribute escaping as the spec words it: `&`, `"`, `<`,
`>` become entities, every other character is kept. -/
def escAttrChar (c : Char) : List Char :=
  if c = '&' then "&amp;".data
  else if c = '"' then "&quot;".data
  else if c = '<' then "&lt;".data
  else if c = '>' then "&gt;".data
  else [c]

/-- Character-level text escaping as the spec words it: `&`, `<`, `>`
become entities, everything else (including `"`) is kept. -/
def escTextChar (c : Char) : List Char :=
  if c = '&' then "&amp;".data
  else if c = '<' then "&lt;".data
  else if c = '>' then "&gt;".data
  else [c]

mutual

/-- Whether a node is, or contains, a table that is retained by the table
rule: a `table` with a `th` descendant or `role="grid"`/`role="table"`, or
any element containing such a table.  This is the corrected retention
condition for the table rule, defined independently of the rewrite. -/
def survivingTableN : Node → Bool
  | .elem t a cs =>
      (t = "table" &&
        (hasTagL "th" cs || getAttr a "role" == some "grid" ||
          getAttr a "role" == some "table")) ||
      survivingTableL cs
  | _ => false

/-- Forest version of `survivingTableN`. -/
def survivingTableL : List Node → Bool
  | [] => false
  | n :: ns => survivingTableN n || survivingTableL ns

end

/-- First-seen order of distinct grouping keys, as the spec words the
thread partition. -/
def seenKeys (emails : List EmailMsg) : List String :=
  emails.foldl (fun acc e => if acc.contains (effKey e) then acc else acc ++ [effKey e]) []

/-- The HTML body-part values that resolve (to a truthy value), as computed
inside `getEmailBody`. -/
def htmlResolved (e : EmailMsg) : List String :=
  match e.bodyValues with
  | none => []
  | some bvs =>
      match e.htmlBody with
      | some l => if l.length > 0 then resolvedValues bvs l else []
      | none => []

/-- The text body-part values that resolve, as computed inside
`getEmailBody`. -/
def textResolved (e : EmailMsg) : List String :=
  match e.bodyValues with
  | none => []
  | some bvs =>
      match e.textBody with
      | some l => if l.length > 0 then resolvedValues bvs l else []
      | none => []

/-- Concrete fixture: a message whose single HTML body part resolves. -/
def htmlBodyMsg : EmailMsg :=
  ⟨"w5", none, none, none, none, none, none, none, none, none, none, none, false,
    some [⟨"1"⟩], none, some [("1", ⟨"<b>hi</b>"⟩)]⟩

/-- Concrete fixture: a message whose `threadId` contains a double quote. -/
def quotedThreadMsg : EmailMsg :=
  ⟨"m1", some "a\"b", none, none, none, none, none, none, none, none, none, none, false,
    none, none, none⟩

/-- Concrete fixture: a message with `threadId` present but empty. -/
def emptyThreadMsg : EmailMsg :=
  ⟨"m9", some "", none, none, none, none, none, none, none, none, none, none, false,
    none, none, none⟩

/-- Whether a character list has no leading and no trailing JS whitespace. -/
def isTrimmedB (l : List Char) : Bool :=
  (match l.head? with
   | some c => !isJsWs c
   | none => true) &&
  (match l.getLast? with
   | some c => !isJsWs c
   | none => true)

/-- Concrete fixture: a data-by-role table (no `th`, `role="grid"`) with one
cell. -/
def nestedRoleTable : Node :=
  Node.elem "table" [("role", "grid")]
    [Node.elem "tr" [] [Node.elem "td" [] [Node.text "x"]]]

/-- Concrete fixture: a layout table (no `th` descendant anywhere, no `role`
attribute) whose only nested table is `nestedRoleTable`. -/
def outerLayoutTable : Node :=
  Node.elem "table" [] [Node.elem "tr" [] [Node.elem "td" [] [nestedRoleTable]]]

/-- Concrete fixture: a data table (has `th`) whose header cell holds a
`center` element. -/
def dataTableWithCenter : Node :=
  Node.elem "table" []
    [Node.elem "tr" [] [Node.elem "th" [] [Node.elem "center" [] [Node.text "x"]]]]

/-! Helper lemmas: tag occurrence under the sanitizer passes. -/

theorem hasTagL_append (t : String) (l1 l2 : List Node) :
    hasTagL t (l1 ++ l2) = (hasTagL t l1 || hasTagL t l2) := by
  induction l1 with
  | nil => simp [hasTagL]
  | cons n ns ih => simp [hasTagL, ih, Bool.or_assoc]

theorem hasTagL_eq_any (t : String) : (l : List Node) → hasTagL t l = l.any (hasTagN t)
  | [] => rfl
  | n :: ns => by simp [hasTagL, hasTagL_eq_any t ns, List.any_cons]

theorem hasTagL_reverse (t : String) (l : List Node) :
    hasTagL t l.reverse = hasTagL t l := by
  simp [hasTagL_eq_any]

mutual

theorem hasTag_removeIfN (p : String → List (String × String) → Bool) (t : String) :
    (n : Node) → hasTagL t (removeIfN p n) = true → hasTagN t n = true
  | .text s => by simp [removeIfN, hasTagL, hasTagN]
  | .comment s => by simp [removeIfN, hasTagL, hasTagN]
  | .elem tg a cs => by
      by_cases hp : p tg a
      · simp [removeIfN, hp, hasTagL]
      · intro h
        simp only [removeIfN, if_neg hp, hasTagL, hasTagN, Bool.or_false] at h
        simp only [hasTagN]
        rcases Bool.or_eq_true_iff.mp h with h' | h'
        · exact Bool.or_eq_true_iff.mpr (Or.inl h')
        · exact Bool.or_eq_true_iff.mpr (Or.inr (hasTag_removeIfL p t cs h'))

theorem hasTag_removeIfL (p : String → List (String × String) → Bool) (t : String) :
    (l : List Node) → hasTagL t (removeIfL p l) = true → hasTagL t l = true
  | [] => by simp [removeIfL]
  | n :: ns => by
      intro h
      rw [removeIfL, hasTagL_append] at h
      simp only [hasTagL]
      rcases Bool.or_eq_true_iff.mp h with h' | h'
      · exact Bool.or_eq_true_iff.mpr (Or.inl (hasTag_removeIfN p t n h'))
      · exact Bool.or_eq_true_iff.mpr (Or.inr (hasTag_removeIfL p t ns h'))

end

mutual

theorem hasTag_removeIfN_kill (p : String → List (String × String) → Bool) (t : String)
    (hp : ∀ a, p t a = true) :
    (n : Node) → hasTagL t (removeIfN p n) = false
  | .text s => by simp [removeIfN, hasTagL, hasTagN]
  | .comment s => by simp [removeIfN, hasTagL, hasTagN]
  | .elem tg a cs => by
      by_cases htg : tg = t
      · subst htg
        simp [removeIfN, hp a, hasTagL]
      · by_cases hpa : p tg a
        · simp [removeIfN, hpa, hasTagL]
        · simp only [removeIfN, if_neg hpa, hasTagL, hasTagN, Bool.or_false]
          simp [htg, hasTag_removeIfL_kill p t hp cs]

theorem hasTag_removeIfL_kill (p : String → List (String × String) → Bool) (t : String)
    (hp : ∀ a, p t a = true) :
    (l : List Node) → hasTagL t (removeIfL p l) = false
  | [] => by simp [removeIfL, hasTagL]
  | n :: ns => by
      rw [removeIfL, hasTagL_append]
      simp [hasTag_removeIfN_kill p t hp n, hasTag_removeIfL_kill p t hp ns]

end

mutual

theorem hasTag_stripAttrsN (bad : List String) (t : String) :
    (n : Node) → hasTagN t (stripAttrsN bad n) = hasTagN t n
  | .text s => rfl
  | .comment s => rfl
  | .elem tg a cs => by
      simp [stripAttrsN, hasTagN, hasTag_stripAttrsL bad t cs]

theorem hasTag_stripAttrsL (bad : List String) (t : String) :
    (l : List Node) → hasTagL t (stripAttrsL bad l) = hasTagL t l
  | [] => rfl
  | n :: ns => by
      simp [stripAttrsL, hasTagL, hasTag_stripAttrsN bad t n, hasTag_stripAttrsL bad t ns]

end

mutual

theorem hasTag_unwrapOrphanN (tags : List String) (t : String) :
    (it : Bool) → (n : Node) → hasTagL t (unwrapOrphanN tags it n) = true → hasTagN t n = true
  | _, .text s => by simp [unwrapOrphanN, hasTagL, hasTagN]
  | _, .comment s => by simp [unwrapOrphanN, hasTagL, hasTagN]
  | it, .elem tg a cs => by
      intro h
      simp only [unwrapOrphanN] at h
      by_cases hc : tags.contains tg && !it
      · rw [if_pos hc] at h
        simp only [hasTagN]
        exact Bool.or_eq_true_iff.mpr
          (Or.inr (hasTag_unwrapOrphanL tags t (it || tg = "table") cs h))
      · rw [if_neg hc] at h
        simp only [hasTagL, hasTagN, Bool.or_false] at h
        simp only [hasTagN]
        rcases Bool.or_eq_true_iff.mp h with h' | h'
        · exact Bool.or_eq_true_iff.mpr (Or.inl h')
        · exact Bool.or_eq_true_iff.mpr
            (Or.inr (hasTag_unwrapOrphanL tags t (it || tg = "table") cs h'))

theorem hasTag_unwrapOrphanL (tags : List String) (t : String) :
    (it : Bool) → (l : List Node) → hasTagL t (unwrapOrphanL tags it l) = true →
      hasTagL t l = true
  | _, [] => by simp [unwrapOrphanL]
  | it, n :: ns => by
      intro h
      rw [unwrapOrphanL, hasTagL_append] at h
      simp only [hasTagL]
      rcases Bool.or_eq_true_iff.mp h with h' | h'
      · exact Bool.or_eq_true_iff.mpr (Or.inl (hasTag_unwrapOrphanN tags t it n h'))
      · exact Bool.or_eq_true_iff.mpr (Or.inr (hasTag_unwrapOrphanL tags t it ns h'))

end

mutual

theorem hasTag_unwrapCenterN (t : String) :
    (n : Node) → hasTagL t (unwrapCenterN n) = true → hasTagN t n = true
  | .text s => by simp [unwrapCenterN, hasTagL, hasTagN]
  | .comment s => by simp [unwrapCenterN, hasTagL, hasTagN]
  | .elem tg a cs => by
      intro h
      simp only [unwrapCenterN] at h
      by_cases hc : tg = "center"
      · rw [if_pos hc] at h
        simp only [hasTagN]
        exact Bool.or_eq_true_iff.mpr (Or.inr h)
      · rw [if_neg hc] at h
        simp only [hasTagL, hasTagN, Bool.or_false] at h
        simp only [hasTagN]
        rcases Bool.or_eq_true_iff.mp h with h' | h'
        · exact Bool.or_eq_true_iff.mpr (Or.inl h')
        · exact Bool.or_eq_true_iff.mpr (Or.inr (hasTag_unwrapCenterL t cs h'))

theorem hasTag_unwrapCenterL (t : String) :
    (l : List Node) → hasTagL t (unwrapCenterL l) = true → hasTagL t l = true
  | [] => by simp [unwrapCenterL]
  | n :: ns => by
      intro h
      rw [unwrapCenterL, hasTagL_append] at h
      simp only [hasTagL]
      rcases Bool.or_eq_true_iff.mp h with h' | h'
      · exact Bool.or_eq_true_iff.mpr (Or.inl (hasTag_unwrapCenterN t n h'))
      · exact Bool.or_eq_true_iff.mpr (Or.inr (hasTag_unwrapCenterL t ns h'))

end

theorem hasTag_trimNodesLeft (t : String) :
    (l : List Node) → hasTagL t (trimNodesLeft l) = hasTagL t l
  | [] => rfl
  | .text s :: rest => by
      by_cases h : (⟨trimLeftL s.data⟩ : String) = ""
      · simp [trimNodesLeft, h, hasTagL, hasTagN, hasTag_trimNodesLeft t rest]
      · simp [trimNodesLeft, h, hasTagL, hasTagN]
  | .comment s :: rest => rfl
  | .elem tg a cs :: rest => rfl

theorem hasTag_trimNodesRightAux (t : String) :
    (l : List Node) → hasTagL t (trimNodesRightAux l) = hasTagL t l
  | [] => rfl
  | .text s :: rest => by
      by_cases h : (⟨trimRightL s.data⟩ : String) = ""
      · simp [trimNodesRightAux, h, hasTagL, hasTagN, hasTag_trimNodesRightAux t rest]
      · simp [trimNodesRightAux, h, hasTagL, hasTagN]
  | .comment s :: rest => rfl
  | .elem tg a cs :: rest => rfl

theorem hasTag_trimNodeList (t : String) (l : List Node) :
    hasTagL t (trimNodeList l) = hasTagL t l := by
  unfold trimNodeList
  rw [hasTagL_reverse, hasTag_trimNodesRightAux, hasTagL_reverse, hasTag_trimNodesLeft]

theorem hasTag_joinCellGroups (t : String) :
    (gs : List (List Node)) → hasTagL t (joinCellGroups gs) = gs.any (fun g => hasTagL t g)
  | [] => rfl
  | [g] => by simp [joinCellGroups]
  | g :: g2 :: rest => by
      rw [joinCellGroups, hasTagL_append]
      simp [hasTagL, hasTagN, hasTag_joinCellGroups t (g2 :: rest)]

mutual

theorem hasTag_cellsN (t : String) :
    (n : Node) → (cellsN n).any (fun g => hasTagL t g) = true → hasTagN t n = true
  | .text s => by simp [cellsN]
  | .comment s => by simp [cellsN]
  | .elem tg a cs => by
      intro h
      simp only [cellsN, List.any_append] at h
      simp only [hasTagN]
      rcases Bool.or_eq_true_iff.mp h with h' | h'
      · by_cases hcell : tg = "td" || tg = "th"
        · rw [if_pos hcell] at h'
          by_cases hemp : jsTrim (serializeL cs) = ""
          · simp [hemp] at h'
          · rw [if_neg hemp] at h'
            simp only [List.any_cons, List.any_nil, Bool.or_false] at h'
            rw [hasTag_trimNodeList] at h'
            exact Bool.or_eq_true_iff.mpr (Or.inr h')
        · simp [hcell] at h'
      · exact Bool.or_eq_true_iff.mpr (Or.inr (hasTag_cellsL t cs h'))

theorem hasTag_cellsL (t : String) :
    (l : List Node) → (cellsL l).any (fun g => hasTagL t g) = true → hasTagL t l = true
  | [] => by simp [cellsL]
  | n :: ns => by
      intro h
      simp only [cellsL, List.any_append] at h
      simp only [hasTagL]
      rcases Bool.or_eq_true_iff.mp h with h' | h'
      · exact Bool.or_eq_true_iff.mpr (Or.inl (hasTag_cellsN t n h'))
      · exact Bool.or_eq_true_iff.mpr (Or.inr (hasTag_cellsL t ns h'))

end

mutual

theorem hasTag_unwrapTablesN (t : String) :
    (n : Node) → hasTagL t (unwrapTablesN n) = true → hasTagN t n = true
  | .text s => by simp [unwrapTablesN, hasTagL, hasTagN]
  | .comment s => by simp [unwrapTablesN, hasTagL, hasTagN]
  | .elem tg a cs => by
      intro h
      simp only [unwrapTablesN] at h
      by_cases ht : tg = "table"
      · rw [if_pos ht] at h
        by_cases h1 : hasTagL "table" (unwrapTablesL cs)
        · rw [if_pos h1] at h
          simp only [hasTagL, hasTagN, Bool.or_false] at h
          simp only [hasTagN]
          rcases Bool.or_eq_true_iff.mp h with h' | h'
          · exact Bool.or_eq_true_iff.mpr (Or.inl h')
          · exact Bool.or_eq_true_iff.mpr (Or.inr (hasTag_unwrapTablesL t cs h'))
        · rw [if_neg h1] at h
          by_cases h2 : isDataTable a (unwrapTablesL cs)
          · rw [if_pos h2] at h
            simp only [hasTagL, hasTagN, Bool.or_false] at h
            simp only [hasTagN]
            rcases Bool.or_eq_true_iff.mp h with h' | h'
            · exact Bool.or_eq_true_iff.mpr (Or.inl h')
            · exact Bool.or_eq_true_iff.mpr (Or.inr (hasTag_unwrapTablesL t cs h'))
          · rw [if_neg h2, hasTag_joinCellGroups] at h
            simp only [hasTagN]
            exact Bool.or_eq_true_iff.mpr
              (Or.inr (hasTag_unwrapTablesL t cs (hasTag_cellsL t (unwrapTablesL cs) h)))
      · rw [if_neg ht] at h
        simp only [hasTagL, hasTagN, Bool.or_false] at h
        simp only [hasTagN]
        rcases Bool.or_eq_true_iff.mp h with h' | h'
        · exact Bool.or_eq_true_iff.mpr (Or.inl h')
        · exact Bool.or_eq_true_iff.mpr (Or.inr (hasTag_unwrapTablesL t cs h'))

theorem hasTag_unwrapTablesL (t : String) :
    (l : List Node) → hasTagL t (unwrapTablesL l) = true → hasTagL t l = true
  | [] => by simp [unwrapTablesL]
  | n :: ns => by
      intro h
      rw [unwrapTablesL, hasTagL_append] at h
      simp only [hasTagL]
      rcases Bool.or_eq_true_iff.mp h with h' | h'
      · exact Bool.or_eq_true_iff.mpr (Or.inl (hasTag_unwrapTablesN t n h'))
      · exact Bool.or_eq_true_iff.mpr (Or.inr (hasTag_unwrapTablesL t ns h'))

end

theorem hasTag_pass_preserve_false (t : String) (f : List Node → List Node)
    (hf : ∀ l, hasTagL t (f l) = true → hasTagL t l = true) (l : List Node)
    (hl : hasTagL t l = false) : hasTagL t (f l) = false := by
  cases hfl : hasTagL t (f l) with
  | false => rfl
  | true => rw [hf l hfl] at hl; exact absurd hl (by simp)

/-- Claim C3: for every parsed document tree, the sanitized tree contains no
`script`, `style`, `noscript`, `iframe`, `object`, `embed`, or `applet`
element, and no `head` element: each such element is deleted with its entire
subtree by the removal passes, and no later pass reintroduces the tag. -/
theorem sanitize_no_active_content (doc : List Node) (t : String)
    (h : t ∈ badActiveTags ∨ t = "head") :
    hasTagL t (sanitizeNodes doc) = false := by
  unfold sanitizeNodes
  have step := hasTag_pass_preserve_false t
  have stripMono : ∀ l, hasTagL t (stripAttrsL presentationalAttrs l) = true →
      hasTagL t l = true := by
    intro l hl
    rwa [hasTag_stripAttrsL] at hl
  rcases h with hmem | hhead
  · have h1 : hasTagL t (removeIfL (fun tg _ => badActiveTags.contains tg) doc) = false :=
      hasTag_removeIfL_kill _ t (fun _ => by simp [hmem]) doc
    have h2 := step _ (hasTag_removeIfL (fun tg _ => tg = "head") t) _ h1
    have h3 := step _ (hasTag_removeIfL hiddenDisplayP t) _ h2
    have h4 := step _ (hasTag_removeIfL hiddenVisibilityP t) _ h3
    have h5 := step _ (hasTag_removeIfL hiddenAttrP t) _ h4
    have h6 := step _ (hasTag_removeIfL trackingPixelP t) _ h5
    have h7 := step _ (hasTag_unwrapTablesL t) _ h6
    have h8 := step _ stripMono _ h7
    have h9 := step _ (hasTag_unwrapOrphanL ["tbody", "thead", "tfoot"] t false) _ h8
    have h10 := step _ (hasTag_unwrapOrphanL ["tr"] t false) _ h9
    have h11 := step _ (hasTag_unwrapOrphanL ["td", "th"] t false) _ h10
    exact step _ (hasTag_unwrapCenterL t) _ h11
  · have h2 : hasTagL t (removeIfL (fun tg _ => tg = "head")
        (removeIfL (fun tg _ => badActiveTags.contains tg) doc)) = false :=
      hasTag_removeIfL_kill _ t (fun _ => by simp [hhead]) _
    have h3 := step _ (hasTag_removeIfL hiddenDisplayP t) _ h2
    have h4 := step _ (hasTag_removeIfL hiddenVisibilityP t) _ h3
    have h5 := step _ (hasTag_removeIfL hiddenAttrP t) _ h4
    have h6 := step _ (hasTag_removeIfL trackingPixelP t) _ h5
    have h7 := step _ (hasTag_unwrapTablesL t) _ h6
    have h8 := step _ stripMono _ h7
    have h9 := step _ (hasTag_unwrapOrphanL ["tbody", "thead", "tfoot"] t false) _ h8
    have h10 := step _ (hasTag_unwrapOrphanL ["tr"] t false) _ h9
    have h11 := step _ (hasTag_unwrapOrphanL ["td", "th"] t false) _ h10
    exact step _ (hasTag_unwrapCenterL t) _ h11

/-- Witness for claim C3 at a concrete document: a `script` element (with a
subtree) next to a `div` is gone from the sanitized tree. -/
theorem sanitize_no_active_content_witness :
    hasTagL "script" (sanitizeNodes
      [Node.elem "script" [] [Node.text "alert(1)"], Node.elem "div" [] [Node.text "Hello"]])
      = false :=
  sanitize_no_active_content
    [Node.elem "script" [] [Node.text "alert(1)"], Node.elem "div" [] [Node.text "Hello"]]
    "script" (Or.inl (by decide))

/-! Lemmas for the table rule: `th` occurrence is invariant under table
resolution, and a table occurs in the resolved forest exactly when the
original forest holds a retained (data) table. -/

mutual

theorem th_unwrapTablesN : (n : Node) → hasTagL "th" (unwrapTablesN n) = hasTagN "th" n
  | .text s => by simp [unwrapTablesN, hasTagL, hasTagN]
  | .comment s => by simp [unwrapTablesN, hasTagL, hasTagN]
  | .elem tg a cs => by
      by_cases ht : tg = "table"
      · subst ht
        simp only [unwrapTablesN, if_pos]
        by_cases h1 : hasTagL "table" (unwrapTablesL cs)
        · simp [h1, hasTagL, hasTagN, th_unwrapTablesL cs]
        · by_cases h2 : isDataTable a (unwrapTablesL cs)
          · simp [h1, h2, hasTagL, hasTagN, th_unwrapTablesL cs]
          · have hthf : hasTagL "th" (unwrapTablesL cs) = false := by
              have h2' : isDataTable a (unwrapTablesL cs) = false := by
                simpa using h2
              simp only [isDataTable, Bool.or_eq_false_iff] at h2'
              exact h2'.1.1
            have hout : hasTagL "th" (joinCellGroups (cellsL (unwrapTablesL cs))) = false := by
              rw [hasTag_joinCellGroups]
              cases hany : (cellsL (unwrapTablesL cs)).any (fun g => hasTagL "th" g) with
              | false => rfl
              | true =>
                  have := hasTag_cellsL "th" (unwrapTablesL cs) hany
                  rw [this] at hthf
                  exact absurd hthf (by simp)
            simp only [h1, h2, if_neg, if_false, Bool.false_eq_true]
            rw [hout]
            have hcs : hasTagL "th" cs = false := by
              rw [← th_unwrapTablesL cs]
              exact hthf
            simp [hasTagN, hcs]
      · simp [unwrapTablesN, ht, hasTagL, hasTagN, th_unwrapTablesL cs]

theorem th_unwrapTablesL : (l : List Node) → hasTagL "th" (unwrapTablesL l) = hasTagL "th" l
  | [] => rfl
  | n :: ns => by
      rw [unwrapTablesL, hasTagL_append]
      simp [hasTagL, th_unwrapTablesN n, th_unwrapTablesL ns]

end

mutual

theorem surviving_unwrapTablesN :
    (n : Node) → hasTagL "table" (unwrapTablesN n) = survivingTableN n
  | .text s => by simp [unwrapTablesN, hasTagL, hasTagN, survivingTableN]
  | .comment s => by simp [unwrapTablesN, hasTagL, hasTagN, survivingTableN]
  | .elem tg a cs => by
      by_cases ht : tg = "table"
      · subst ht
        simp only [unwrapTablesN, if_pos]
        by_cases h1 : hasTagL "table" (unwrapTablesL cs)
        · have hs : survivingTableL cs = true := by
            rw [← surviving_unwrapTablesL cs]
            exact h1
          simp [h1, hasTagL, hasTagN, survivingTableN, hs]
        · by_cases h2 : isDataTable a (unwrapTablesL cs)
          · have h2' : isDataTable a (unwrapTablesL cs) = true := by simpa using h2
            simp only [isDataTable, th_unwrapTablesL cs] at h2'
            simp [h1, h2, hasTagL, hasTagN, survivingTableN, h2']
          · have h2' : isDataTable a (unwrapTablesL cs) = false := by simpa using h2
            simp only [isDataTable, Bool.or_eq_false_iff] at h2'
            have hthcs : hasTagL "th" cs = false := by
              rw [← th_unwrapTablesL cs]
              exact h2'.1.1
            have hout : hasTagL "table" (joinCellGroups (cellsL (unwrapTablesL cs))) = false := by
              rw [hasTag_joinCellGroups]
              cases hany : (cellsL (unwrapTablesL cs)).any (fun g => hasTagL "table" g) with
              | false => rfl
              | true =>
                  have h' := hasTag_cellsL "table" (unwrapTablesL cs) hany
                  rw [h'] at h1
                  exact absurd rfl h1
            have hs : survivingTableL cs = false := by
              rw [← surviving_unwrapTablesL cs]
              simpa using h1
            simp only [h1, h2, if_neg, if_false, Bool.false_eq_true]
            rw [hout]
            simp [survivingTableN, hthcs, h2'.1.2, h2'.2, hs]
      · simp [unwrapTablesN, ht, hasTagL, hasTagN, survivingTableN, surviving_unwrapTablesL cs]

theorem surviving_unwrapTablesL :
    (l : List Node) → hasTagL "table" (unwrapTablesL l) = survivingTableL l
  | [] => rfl
  | n :: ns => by
      rw [unwrapTablesL, hasTagL_append]
      simp [survivingTableL, surviving_unwrapTablesN n, surviving_unwrapTablesL ns]

end

/-- Claim C1 (amended): the table rule retains a `table` element (resolving
its descendants) exactly when it has a `th` descendant, carries
`role="grid"` or `role="table"`, or contains a retained data table; only a
layout table all of whose nested tables are themselves unwrapped is replaced
by the newline-joined markup of its non-empty `td`/`th` cells.  Moreover a
`table` element occurs in a resolved forest exactly when the original
forest holds a retained table. -/
theorem table_rule_retention :
    (∀ (a : List (String × String)) (cs : List Node),
      unwrapTablesN (Node.elem "table" a cs) =
        if hasTagL "th" cs || getAttr a "role" == some "grid" ||
            getAttr a "role" == some "table" || survivingTableL cs then
          [Node.elem "table" a (unwrapTablesL cs)]
        else joinCellGroups (cellsL (unwrapTablesL cs))) ∧
    (∀ l : List Node, hasTagL "table" (unwrapTablesL l) = survivingTableL l) := by
  constructor
  · intro a cs
    simp only [unwrapTablesN, if_pos]
    by_cases h1 : hasTagL "table" (unwrapTablesL cs)
    · have hs : survivingTableL cs = true := by
        rw [← surviving_unwrapTablesL cs]
        exact h1
      simp [h1, hs]
    · by_cases h2 : isDataTable a (unwrapTablesL cs)
      · have h2' : isDataTable a (unwrapTablesL cs) = true := by simpa using h2
        rw [isDataTable, th_unwrapTablesL cs] at h2'
        simp only [Bool.or_eq_true] at h2'
        have hcond : (hasTagL "th" cs || getAttr a "role" == some "grid" ||
            getAttr a "role" == some "table" || survivingTableL cs) = true := by
          simp only [Bool.or_eq_true]
          tauto
        simp [h1, h2, hcond]
      · have h2' : isDataTable a (unwrapTablesL cs) = false := by simpa using h2
        rw [isDataTable, th_unwrapTablesL cs] at h2'
        simp only [Bool.or_eq_false_iff] at h2'
        have hs : survivingTableL cs = false := by
          rw [← surviving_unwrapTablesL cs]
          simpa using h1
        have hcond : (hasTagL "th" cs || getAttr a "role" == some "grid" ||
            getAttr a "role" == some "table" || survivingTableL cs) = false := by
          simp only [Bool.or_eq_false_iff]
          exact ⟨⟨⟨h2'.1.1, h2'.1.2⟩, h2'.2⟩, hs⟩
        simp [h1, h2, hcond]
  · exact surviving_unwrapTablesL

/-- Claim C1 counterexample: `outerLayoutTable` is a layout table by the
claim's definition (no `th` descendant, no `role` attribute), so the claim
says sanitize removes it as a table element; but the sanitizer leaves the
whole tree unchanged — the outer table is retained as a `table` element
because its nested role-marked data table is never resolved away. -/
theorem layout_table_retained_counterexample :
    hasTagN "th" outerLayoutTable = false ∧
    getAttr ([] : List (String × String)) "role" = none ∧
    sanitizeNodes [outerLayoutTable] = [outerLayoutTable] ∧
    hasTagL "table" (sanitizeNodes [outerLayoutTable]) = true :=
  ⟨rfl, rfl, rfl, rfl⟩

/-- Claim C7 (amended): in the cleanup passes, a `tbody`/`thead`/`tfoot`,
`tr`, or `td`/`th` element is replaced by its own children exactly when it
is not a descendant of a table element (it is kept, children resolved, when
it is such a descendant); a `center` element that is not nested inside
another center is always replaced by its children — taken verbatim, so a
center nested inside a replaced center survives the pass — even when it is
a descendant of a surviving data table. -/
theorem orphan_unwrap_rule :
    (∀ (t : String) (a : List (String × String)) (cs : List Node),
      (t = "tbody" ∨ t = "thead" ∨ t = "tfoot") →
        unwrapOrphanN ["tbody", "thead", "tfoot"] true (Node.elem t a cs) =
          [Node.elem t a (unwrapOrphanL ["tbody", "thead", "tfoot"] true cs)] ∧
        unwrapOrphanN ["tbody", "thead", "tfoot"] false (Node.elem t a cs) =
          unwrapOrphanL ["tbody", "thead", "tfoot"] false cs) ∧
    (∀ (a : List (String × String)) (cs : List Node),
      unwrapOrphanN ["tr"] true (Node.elem "tr" a cs) =
        [Node.elem "tr" a (unwrapOrphanL ["tr"] true cs)] ∧
      unwrapOrphanN ["tr"] false (Node.elem "tr" a cs) =
        unwrapOrphanL ["tr"] false cs) ∧
    (∀ (t : String) (a : List (String × String)) (cs : List Node),
      (t = "td" ∨ t = "th") →
        unwrapOrphanN ["td", "th"] true (Node.elem t a cs) =
          [Node.elem t a (unwrapOrphanL ["td", "th"] true cs)] ∧
        unwrapOrphanN ["td", "th"] false (Node.elem t a cs) =
          unwrapOrphanL ["td", "th"] false cs) ∧
    (∀ (a : List (String × String)) (cs : List Node),
      unwrapCenterN (Node.elem "center" a cs) = cs) ∧
    (∀ (t : String) (a : List (String × String)) (cs : List Node),
      t ≠ "center" →
        unwrapCenterN (Node.elem t a cs) = [Node.elem t a (unwrapCenterL cs)]) := by
  refine ⟨?_, ?_, ?_, ?_, ?_⟩
  · intro t a cs ht
    rcases ht with h | h | h <;> subst h <;>
      exact ⟨by simp [unwrapOrphanN], by simp [unwrapOrphanN]⟩
  · intro a cs
    exact ⟨by simp [unwrapOrphanN], by simp [unwrapOrphanN]⟩
  · intro t a cs ht
    rcases ht with h | h <;> subst h <;>
      exact ⟨by simp [unwrapOrphanN], by simp [unwrapOrphanN]⟩
  · intro a cs
    simp [unwrapCenterN]
  · intro t a cs ht
    simp [unwrapCenterN, ht]

/-- Witness for claim C7 (amended) at concrete elements: a `tbody` inside a
table is kept, a `td` outside a table is unwrapped, and a center directly
containing another center is replaced by its children verbatim, so the
inner center survives the pass. -/
theorem orphan_unwrap_rule_witness :
    unwrapOrphanN ["tbody", "thead", "tfoot"] true (Node.elem "tbody" [] [Node.text "x"]) =
      [Node.elem "tbody" [] [Node.text "x"]] ∧
    unwrapOrphanN ["td", "th"] false (Node.elem "td" [] [Node.text "x"]) =
      [Node.text "x"] ∧
    unwrapCenterN (Node.elem "center" [] [Node.elem "center" [] [Node.text "x"]]) =
      [Node.elem "center" [] [Node.text "x"]] := by
  refine ⟨?_, ?_, ?_⟩
  · have h := (orphan_unwrap_rule.1 "tbody" [] [Node.text "x"] (Or.inl rfl)).1
    exact h.trans rfl
  · have h := (orphan_unwrap_rule.2.2.1 "td" [] [Node.text "x"] (Or.inl rfl)).2
    exact h.trans rfl
  · exact orphan_unwrap_rule.2.2.2.1 [] [Node.elem "center" [] [Node.text "x"]]

/-- Claim C7 counterexample: a `center` element inside a retained data
table is not left in place — the sanitizer unwraps it to its children even
though it is a descendant of a surviving `table`. -/
theorem center_in_table_unwrapped_counterexample :
    sanitizeNodes [dataTableWithCenter] =
      [Node.elem "table" [] [Node.elem "tr" [] [Node.elem "th" [] [Node.text "x"]]]] ∧
    hasTagL "center" (sanitizeNodes [dataTableWithCenter]) = false ∧
    hasTagL "table" (sanitizeNodes [dataTableWithCenter]) = true :=
  ⟨rfl, rfl, rfl⟩

/-! Lemmas for the blank-line collapse and the final trim. -/

theorem collapseNlAux_fuel : (f1 : Nat) → (l : List Char) → (f2 : Nat) →
    l.length ≤ f1 → l.length ≤ f2 → collapseNlAux f1 l = collapseNlAux f2 l
  | 0, l, f2, h1, _ => by
      have hnil : l = [] := List.length_eq_zero.mp (Nat.le_zero.mp h1)
      subst hnil
      cases f2 <;> rfl
  | _ + 1, [], f2, _, _ => by cases f2 <;> rfl
  | f1 + 1, c :: cs, f2, h1, h2 => by
      cases f2 with
      | zero => exact absurd h2 (by simp)
      | succ f2' =>
          simp only [collapseNlAux]
          by_cases hc : (c = '\n' && cs.take 2 = ['\n', '\n']) = true
          · rw [if_pos hc, if_pos hc]
            have hd : (cs.dropWhile (fun x => x = '\n')).length ≤ cs.length :=
              (List.dropWhile_suffix (fun x => x = '\n')).length_le
            have hl1 : (cs.dropWhile (fun x => x = '\n')).length ≤ f1 := by
              simp only [List.length_cons] at h1
              omega
            have hl2 : (cs.dropWhile (fun x => x = '\n')).length ≤ f2' := by
              simp only [List.length_cons] at h2
              omega
            rw [collapseNlAux_fuel f1 _ f2' hl1 hl2]
          · rw [if_neg hc, if_neg hc]
            have hl1 : cs.length ≤ f1 := by
              simp only [List.length_cons] at h1
              omega
            have hl2 : cs.length ≤ f2' := by
              simp only [List.length_cons] at h2
              omega
            rw [collapseNlAux_fuel f1 cs f2' hl1 hl2]

theorem dropWhile_nl_replicate (k : Nat) (b : List Char) (hb : b.head? ≠ some '\n') :
    (List.replicate k '\n' ++ b).dropWhile (fun x => x = '\n') = b := by
  induction k with
  | zero =>
      simp only [List.replicate, List.nil_append]
      cases b with
      | nil => rfl
      | cons c cs =>
          have hc : c ≠ '\n' := by
            intro e
            exact hb (by simp [e])
          simp [List.dropWhile_cons, hc]
  | succ k ih =>
      simp [List.replicate, List.dropWhile_cons, ih]

theorem take2_not_nlnl (b : List Char) (hb : b.head? ≠ some '\n') :
    b.take 2 ≠ ['\n', '\n'] := by
  cases b with
  | nil => simp
  | cons c cs =>
      intro h
      simp only [List.take, List.cons.injEq] at h
      exact hb (by simp [h.1])

theorem take1_not_nl (b : List Char) (hb : b.head? ≠ some '\n') :
    b.take 1 ≠ ['\n'] := by
  cases b with
  | nil => simp
  | cons c cs =>
      intro h
      simp only [List.take, List.cons.injEq] at h
      exact hb (by simp [h.1])

theorem collapseNlAux_run : (a : List Char) → (fuel : Nat) → (k : Nat) → (b : List Char) →
    (∀ c ∈ a, c ≠ '\n') → b.head? ≠ some '\n' →
    a.length + k + b.length ≤ fuel →
    collapseNlAux fuel (a ++ List.replicate k '\n' ++ b) =
      a ++ List.replicate (min k 2) '\n' ++ collapseNewlines b
  | [], fuel, 0, b, _, hb, hf => by
      simp only [List.length_nil, List.length_replicate] at hf
      have hfi : collapseNlAux fuel b = collapseNewlines b :=
        collapseNlAux_fuel fuel b b.length (by omega) le_rfl
      simpa using hfi
  | [], fuel, 1, b, _, hb, hf => by
      simp only [List.length_nil, List.length_replicate] at hf
      cases fuel with
      | zero => exact absurd hf (by omega)
      | succ f =>
          have hfi : collapseNlAux f b = collapseNewlines b :=
            collapseNlAux_fuel f b b.length (by omega) le_rfl
          simp [collapseNlAux, List.replicate, take2_not_nlnl b hb, hfi]
  | [], fuel, 2, b, _, hb, hf => by
      simp only [List.length_nil, List.length_replicate] at hf
      cases fuel with
      | zero => exact absurd hf (by omega)
      | succ f =>
          cases f with
          | zero => exact absurd hf (by omega)
          | succ f2 =>
              have hfi : collapseNlAux f2 b = collapseNewlines b :=
                collapseNlAux_fuel f2 b b.length (by omega) le_rfl
              simp [collapseNlAux, List.replicate, take2_not_nlnl b hb,
                take1_not_nl b hb, hfi]
  | [], fuel, k3 + 3, b, _, hb, hf => by
      simp only [List.length_nil, List.length_replicate] at hf
      cases fuel with
      | zero => exact absurd hf (by omega)
      | succ f =>
          have hdrop : (('\n' :: '\n' :: List.replicate k3 '\n' ++ b).dropWhile
              (fun x => x = '\n')) = b := by
            have he : '\n' :: '\n' :: List.replicate k3 '\n' ++ b =
                List.replicate (k3 + 2) '\n' ++ b := by
              simp [List.replicate]
            rw [he]
            exact dropWhile_nl_replicate (k3 + 2) b hb
          have hdb : b.dropWhile (fun x => x = '\n') = b := by
            have := dropWhile_nl_replicate 0 b hb
            simpa using this
          have hfi : collapseNlAux f b = collapseNewlines b :=
            collapseNlAux_fuel f b b.length (by omega) le_rfl
          have hmin : min (k3 + 3) 2 = 2 := by omega
          simp [collapseNlAux, List.replicate, List.take, hdrop, hdb, hfi, hmin]
  | x :: a', fuel, k, b, ha, hb, hf => by
      have hx : x ≠ '\n' := ha x (by simp)
      cases fuel with
      | zero =>
          simp only [List.length_cons] at hf
          exact absurd hf (by omega)
      | succ f =>
          have hrec := collapseNlAux_run a' f k b (fun c hc => ha c (by simp [hc])) hb
            (by simp only [List.length_cons] at hf; omega)
          simp [collapseNlAux, hx]
          simpa using hrec

theorem collapseNewlines_run (a b : List Char) (k : Nat)
    (ha : ∀ c ∈ a, c ≠ '\n') (hb : b.head? ≠ some '\n') :
    collapseNewlines (a ++ List.replicate k '\n' ++ b) =
      a ++ List.replicate (min k 2) '\n' ++ collapseNewlines b :=
  collapseNlAux_run a (a ++ List.replicate k '\n' ++ b).length k b ha hb
    (by simp only [List.length_append, List.length_replicate]; omega)

theorem dropWhile_head_ws (p : Char → Bool) (l : List Char) (c : Char)
    (h : (l.dropWhile p).head? = some c) : p c = false := by
  induction l with
  | nil => simp at h
  | cons x xs ih =>
      by_cases hp : p x
      · rw [List.dropWhile_cons, if_pos hp] at h
        exact ih h
      · rw [List.dropWhile_cons, if_neg hp] at h
        simp only [List.head?_cons, Option.some.injEq] at h
        subst h
        exact Bool.eq_false_iff.mpr hp

theorem prefix_head_eq (l1 l2 : List Char) (h : l1 <+: l2) :
    l1.head? = none ∨ l1.head? = l2.head? := by
  rcases h with ⟨t, rfl⟩
  cases l1 with
  | nil => exact Or.inl rfl
  | cons x xs => exact Or.inr (by simp)

theorem trimL_head (s : List Char) (c : Char) (h : (trimL s).head? = some c) :
    isJsWs c = false := by
  unfold trimL trimRightL at h
  have hpre : ((trimLeftL s).reverse.dropWhile isJsWs).reverse <+:
      (trimLeftL s).reverse.reverse :=
    List.reverse_prefix.mpr (List.dropWhile_suffix isJsWs)
  rw [List.reverse_reverse] at hpre
  rcases prefix_head_eq _ _ hpre with h0 | h0
  · rw [h0] at h
    exact absurd h (by simp)
  · rw [h0] at h
    unfold trimLeftL at h
    exact dropWhile_head_ws isJsWs s c h

theorem trimL_last (s : List Char) (c : Char) (h : (trimL s).getLast? = some c) :
    isJsWs c = false := by
  unfold trimL trimRightL at h
  rw [List.getLast?_reverse] at h
  exact dropWhile_head_ws isJsWs _ c h

theorem isTrimmed_trimL (s : List Char) : isTrimmedB (trimL s) = true := by
  unfold isTrimmedB
  cases h1 : (trimL s).head? with
  | none =>
      cases h2 : (trimL s).getLast? with
      | none => simp
      | some c2 => simp [trimL_last s c2 h2]
  | some c =>
      cases h2 : (trimL s).getLast? with
      | none => simp [trimL_head s c h1]
      | some c2 => simp [trimL_head s c h1, trimL_last s c2 h2]

/-- Claim C8 (amended): in the final serialization step, every maximal run
of three or more newline characters — that is, two or more consecutive
blank lines — is collapsed to exactly two newlines (one blank line), while
runs of one or two newline characters (at most one blank line) are copied
unchanged; and the whole result is trimmed of leading and trailing
whitespace. -/
theorem final_collapse_and_trim :
    (∀ (a b : List Char) (k : Nat), (∀ c ∈ a, c ≠ '\n') → b.head? ≠ some '\n' →
      collapseNewlines (a ++ List.replicate k '\n' ++ b) =
        a ++ List.replicate (min k 2) '\n' ++ collapseNewlines b) ∧
    (∀ s : String, isTrimmedB (finalizeSerialized s).data = true) := by
  constructor
  · exact fun a b k ha hb => collapseNewlines_run a b k ha hb
  · intro s
    show isTrimmedB (jsTrim ⟨collapseNewlines (stripHtmlComments s).data⟩).data = true
    exact isTrimmed_trimL _

/-- Witness for claim C8 (amended): a run of three newlines between `a` and
`b` collapses to two, and a concrete finalized output is trimmed. -/
theorem final_collapse_and_trim_witness :
    collapseNewlines (['a'] ++ List.replicate 3 '\n' ++ ['b']) =
      ['a'] ++ List.replicate (min 3 2) '\n' ++ collapseNewlines ['b'] ∧
    isTrimmedB (finalizeSerialized "  x  ").data = true :=
  ⟨final_collapse_and_trim.1 ['a'] ['b'] 3 (by decide) (by decide),
   final_collapse_and_trim.2 "  x  "⟩

/-- Claim C8 counterexample: the string `"a\n\n\nb"` holds a maximal run of
three newline characters, i.e. exactly two consecutive blank lines — fewer
than three blank lines, so by the claim it must not be collapsed; but the
collapse step (and the whole sanitizer) rewrites it to `"a\n\nb"`, a single
blank line. -/
theorem blank_line_collapse_counterexample :
    collapseNewlines "a\n\n\nb".data = "a\n\nb".data ∧
    sanitizeEmailHtml "a\n\n\nb" = "a\n\nb" ∧
    ("a\n\nb" : String) ≠ "a\n\n\nb" :=
  ⟨by decide, by decide, by decide⟩

/-! Lemmas for the escape-decoding stage. -/

theorem replacePairAux_id (a b c : Char) : (fuel : Nat) → (l : List Char) →
    (∀ x ∈ l, x ≠ a) → replacePairAux a b c fuel l = l
  | 0, _, _ => rfl
  | _ + 1, [], _ => rfl
  | _ + 1, [_], _ => rfl
  | fuel + 1, x :: y :: rest, h => by
      have hx : x ≠ a := h x (by simp)
      simp only [replacePairAux]
      rw [if_neg (by simp [hx])]
      rw [replacePairAux_id a b c fuel (y :: rest) (fun z hz => h z (List.mem_cons_of_mem x hz))]

/-- Claim C4 (amended): `sanitize` is not idempotent in general, because the
escape-decoding stage re-applies to its own output (the counterexample
below: four backslashes decode to two, and on a second run to one).  On any
string containing no backslash character the decoding stage is the
identity, so on such strings that stage contributes no further change when
sanitize is re-run. -/
theorem unescape_id_of_no_backslash (s : String) (h : ∀ ch ∈ s.data, ch ≠ '\\') :
    unescapeJsonString s = s := by
  unfold unescapeJsonString replacePair
  rw [replacePairAux_id '\\' 'n' '\n' s.data.length s.data h]
  rw [replacePairAux_id '\\' 'r' '\r' s.data.length s.data h]
  rw [replacePairAux_id '\\' 't' '\t' s.data.length s.data h]
  rw [replacePairAux_id '\\' '"' '"' s.data.length s.data h]
  rw [replacePairAux_id '\\' '\\' '\\' s.data.length s.data h]

/-- Witness for claim C4 (amended): the decoding stage leaves a concrete
backslash-free string unchanged. -/
theorem unescape_id_of_no_backslash_witness :
    unescapeJsonString "<p>abc</p>" = "<p>abc</p>" :=
  unescape_id_of_no_backslash "<p>abc</p>" (by decide)

/-- Claim C4 counterexample: at the four-backslash input string, sanitize of
sanitize differs from sanitize — the first run leaves two backslashes, the
second collapses them to one, so re-running the sanitizer on its own output
is not a fixed point. -/
theorem sanitize_not_idempotent_counterexample :
    sanitizeEmailHtml "\\\\\\\\" = "\\\\" ∧
    sanitizeEmailHtml (sanitizeEmailHtml "\\\\\\\\") = "\\" ∧
    sanitizeEmailHtml (sanitizeEmailHtml "\\\\\\\\") ≠ sanitizeEmailHtml "\\\\\\\\" :=
  ⟨by decide, by decide, by decide⟩

/-! Lemmas for the body extractor. -/

theorem getEmailBody_eq (e : EmailMsg) :
    getEmailBody e =
      if (htmlResolved e).length > 0 then
        sanitizeEmailHtml (joinSep "\n" (htmlResolved e))
      else if (textResolved e).length > 0 then
        jsTrim (joinSep "\n" (textResolved e))
      else "" := by
  unfold getEmailBody htmlResolved textResolved
  cases h1 : e.bodyValues with
  | none => simp
  | some bvs =>
      cases h2 : e.htmlBody with
      | none => cases h3 : e.textBody <;> simp
      | some l => cases h3 : e.textBody <;> simp

theorem resolvedValues_all (bvs : List (String × BodyValue)) :
    (l : List PartRef) →
    (∀ p ∈ l, ∃ b, lookupBV bvs p.partId = some b ∧ b.value ≠ "") →
    resolvedValues bvs l =
      l.map (fun p => ((lookupBV bvs p.partId).map BodyValue.value).getD "")
  | [], _ => rfl
  | p :: ps, h => by
      obtain ⟨b, hb, hbv⟩ := h p (by simp)
      have ih := resolvedValues_all bvs ps (fun q hq => h q (List.mem_cons_of_mem p hq))
      have hfp : (match lookupBV bvs p.partId with
          | some b => if b.value = "" then none else some b.value
          | none => none) = some b.value := by
        rw [hb]
        exact if_neg hbv
      have hfp2 : ((lookupBV bvs p.partId).map BodyValue.value).getD "" = b.value := by
        rw [hb]
        rfl
      show List.filterMap _ (p :: ps) = _
      rw [List.filterMap_cons, List.map_cons]
      simp only [hfp, hfp2]
      exact congrArg (List.cons b.value) ih

/-- Claim C5: body-extraction precedence.  If the HTML body-part list is
non-empty and every referenced part resolves to a non-empty value, the
result is sanitize applied to those values joined by newlines; if no HTML
part resolves, the result is the resolved text values joined by newlines
and trimmed; if neither resolves, the result is the empty string.  (The
function is total by construction, so it never raises.) -/
theorem getEmailBody_precedence (e : EmailMsg) :
    (∀ (bvs : List (String × BodyValue)) (l : List PartRef),
      e.bodyValues = some bvs → e.htmlBody = some l → l ≠ [] →
      (∀ p ∈ l, ∃ b, lookupBV bvs p.partId = some b ∧ b.value ≠ "") →
      getEmailBody e = sanitizeEmailHtml (joinSep "\n"
        (l.map (fun p => ((lookupBV bvs p.partId).map BodyValue.value).getD "")))) ∧
    (htmlResolved e = [] → getEmailBody e = jsTrim (joinSep "\n" (textResolved e))) ∧
    (htmlResolved e = [] → textResolved e = [] → getEmailBody e = "") := by
  refine ⟨?_, ?_, ?_⟩
  · intro bvs l hbv hhb hne hres
    have hlen : l.length > 0 := List.length_pos.mpr hne
    have hhr : htmlResolved e =
        l.map (fun p => ((lookupBV bvs p.partId).map BodyValue.value).getD "") := by
      unfold htmlResolved
      rw [hbv, hhb]
      show (if l.length > 0 then resolvedValues bvs l else []) = _
      rw [if_pos hlen]
      exact resolvedValues_all bvs l hres
    rw [getEmailBody_eq, hhr, if_pos (by simp [List.length_map]; omega)]
  · intro hempty
    rw [getEmailBody_eq, hempty]
    simp only [List.length_nil, gt_iff_lt, Nat.lt_irrefl, if_false]
    by_cases ht : (textResolved e).length > 0
    · rw [if_pos ht]
    · rw [if_neg ht]
      have : textResolved e = [] := List.length_eq_zero.mp (by omega)
      rw [this]
      rfl
  · intro hempty htempty
    rw [getEmailBody_eq, hempty, htempty]
    simp

/-- Witness for claim C5 at a concrete message: the single resolving HTML
part wins and is sanitized. -/
theorem getEmailBody_precedence_witness :
    getEmailBody htmlBodyMsg = sanitizeEmailHtml "<b>hi</b>" := by
  have h := (getEmailBody_precedence htmlBodyMsg).1 [("1", ⟨"<b>hi</b>"⟩)] [⟨"1"⟩]
    rfl rfl (by simp)
    (by
      intro p hp
      simp only [List.mem_singleton] at hp
      subst hp
      exact ⟨⟨"<b>hi</b>"⟩, rfl, by decide⟩)
  simpa using h

/-! Helper lemmas on string heads, for distinguishing rendered attributes. -/

theorem strStarts_false_head (p s : String) (c1 c2 : Char) {ps ls : List Char}
    (hp : p.data = c1 :: ps) (hs : s.data = c2 :: ls) (h : c1 ≠ c2) :
    strStarts p s = false := by
  unfold strStarts
  rw [hp, hs]
  simp [isPrefB, h]

theorem ne_of_data_head {s t : String} {c1 c2 : Char} {l1 l2 : List Char}
    (h1 : s.data = c1 :: l1) (h2 : t.data = c2 :: l2) (h : c1 ≠ c2) : s ≠ t := by
  intro e
  rw [e, h2] at h1
  exact h (by injection h1 with hh _; exact hh.symm)

theorem data_append_cons (a : String) (x y : String) (c : Char) {l : List Char}
    (ha : a.data = c :: l) : (a ++ x ++ y).data = c :: (l ++ x.data ++ y.data) := by
  rw [String.data_append, String.data_append, ha]
  simp

/-- Claim C9: the email opening tag's `status` attribute is the
comma-joined flag subset {unread (when `$seen` absent/false), flagged,
replied, draft} in that order, omitted entirely when the subset is empty;
and `attachments="yes"` is present exactly when `hasAttachment` is true. -/
theorem email_status_attrs (e : EmailMsg) :
    (statusFlags e ≠ [] →
      ("status=\"" ++ joinSep ", " (statusFlags e) ++ "\"") ∈ emailAttrs e) ∧
    (statusFlags e = [] → ∀ s ∈ emailAttrs e, strStarts "status=" s = false) ∧
    (("attachments=\"yes\"" ∈ emailAttrs e) ↔ e.hasAttachment = true) ∧
    statusFlags e =
      (if kwGet e Keywords.seen = false then ["unread"] else []) ++
      (if kwGet e Keywords.flagged = true then ["flagged"] else []) ++
      (if kwGet e Keywords.answered = true then ["replied"] else []) ++
      (if kwGet e Keywords.draft = true then ["draft"] else []) := by
  refine ⟨?_, ?_, ?_, ?_⟩
  · intro hne
    unfold emailAttrs
    have hlen : (statusFlags e).length > 0 := List.length_pos.mpr hne
    rw [if_pos hlen]
    simp [List.mem_append]
  · intro hz s hs
    unfold emailAttrs at hs
    rw [hz] at hs
    cases h1 : e.receivedAt with
    | some t =>
        rw [h1] at hs
        simp only [List.length_nil, gt_iff_lt, Nat.lt_irrefl, if_false, List.append_nil,
          List.nil_append, List.mem_append, List.mem_singleton] at hs
        rcases hs with (hs | hs) | hs
        · subst hs
          exact strStarts_false_head _ _ 's' 'i' rfl (data_append_cons _ _ _ 'i' rfl) (by decide)
        · subst hs
          exact strStarts_false_head _ _ 's' 'd' rfl (data_append_cons _ _ _ 'd' rfl) (by decide)
        · cases h3 : e.hasAttachment with
          | false => rw [h3] at hs; simp at hs
          | true =>
              rw [h3] at hs
              simp only [if_true, List.mem_singleton] at hs
              subst hs
              decide
    | none =>
        rw [h1] at hs
        cases h2 : e.sentAt with
        | some t =>
            rw [h2] at hs
            simp only [List.length_nil, gt_iff_lt, Nat.lt_irrefl, if_false, List.append_nil,
              List.nil_append, List.mem_append, List.mem_singleton] at hs
            rcases hs with (hs | hs) | hs
            · subst hs
              exact strStarts_false_head _ _ 's' 'i' rfl (data_append_cons _ _ _ 'i' rfl)
                (by decide)
            · subst hs
              exact strStarts_false_head _ _ 's' 'd' rfl (data_append_cons _ _ _ 'd' rfl)
                (by decide)
            · cases h3 : e.hasAttachment with
              | false => rw [h3] at hs; simp at hs
              | true =>
                  rw [h3] at hs
                  simp only [if_true, List.mem_singleton] at hs
                  subst hs
                  decide
        | none =>
            rw [h2] at hs
            simp only [List.length_nil, gt_iff_lt, Nat.lt_irrefl, if_false, List.append_nil,
              List.nil_append, List.mem_append, List.mem_singleton] at hs
            rcases hs with hs | hs
            · subst hs
              exact strStarts_false_head _ _ 's' 'i' rfl (data_append_cons _ _ _ 'i' rfl)
                (by decide)
            · cases h3 : e.hasAttachment with
              | false => rw [h3] at hs; simp at hs
              | true =>
                  rw [h3] at hs
                  simp only [if_true, List.mem_singleton] at hs
                  subst hs
                  decide
  · have hid : ("attachments=\"yes\"" : String) ≠ "id=\"" ++ escapeXmlAttr e.id ++ "\"" :=
      ne_of_data_head rfl (data_append_cons "id=\"" _ _ 'i' rfl) (by decide)
    have hstat : ("attachments=\"yes\"" : String) ≠
        "status=\"" ++ joinSep ", " (statusFlags e) ++ "\"" :=
      ne_of_data_head rfl (data_append_cons "status=\"" _ _ 's' rfl) (by decide)
    unfold emailAttrs
    constructor
    · intro hs
      rcases List.mem_append.mp hs with hs | hs
      · exfalso
        rcases List.mem_append.mp hs with hs | hs
        · rcases List.mem_append.mp hs with hs | hs
          · exact hid (List.mem_singleton.mp hs)
          · cases h1 : e.receivedAt with
            | some t =>
                rw [h1] at hs
                simp only [List.mem_singleton] at hs
                exact ne_of_data_head rfl (data_append_cons "date=\"" _ _ 'd' rfl)
                  (by decide) hs
            | none =>
                rw [h1] at hs
                cases h2 : e.sentAt with
                | some t =>
                    rw [h2] at hs
                    simp only [List.mem_singleton] at hs
                    exact ne_of_data_head rfl (data_append_cons "date=\"" _ _ 'd' rfl)
                      (by decide) hs
                | none =>
                    rw [h2] at hs
                    simp at hs
        · by_cases hl : (statusFlags e).length > 0
          · rw [if_pos hl] at hs
            simp only [List.mem_singleton] at hs
            exact hstat hs
          · rw [if_neg hl] at hs
            simp at hs
      · by_cases h3 : e.hasAttachment
        · exact h3
        · rw [if_neg h3] at hs
          simp at hs
    · intro h3
      simp [h3, List.mem_append]
  · unfold statusFlags
    cases hk : e.keywords with
    | none => simp [kwGet, hk]
    | some kw =>
        simp only [kwGet, hk]
        cases kw.seen <;> cases kw.flagged <;> cases kw.answered <;> cases kw.draft <;> simp

/-- Witness for claim C9 at a concrete message: with `$flagged` set and
`$seen` unset, the status attribute is `"unread, flagged"`, and with
`hasAttachment` true the attachments attribute is present. -/
theorem email_status_attrs_witness :
    ("status=\"unread, flagged\"" ∈ emailAttrs
      ⟨"m2", none, none, none, none, none, none, none, none, none, none,
        some ⟨false, true, false, false⟩, true, none, none, none⟩) ∧
    ("attachments=\"yes\"" ∈ emailAttrs
      ⟨"m2", none, none, none, none, none, none, none, none, none, none,
        some ⟨false, true, false, false⟩, true, none, none, none⟩) := by
  constructor
  · have h := (email_status_attrs
      ⟨"m2", none, none, none, none, none, none, none, none, none, none,
        some ⟨false, true, false, false⟩, true, none, none, none⟩).1 (by decide)
    simpa using h
  · exact (email_status_attrs
      ⟨"m2", none, none, none, none, none, none, none, none, none, none,
        some ⟨false, true, false, false⟩, true, none, none, none⟩).2.2.1.mpr rfl

/-! Helper lemmas: string prefixes and the head of the thread map. -/

theorem isPrefB_append : (l m : List Char) → isPrefB l (l ++ m) = true
  | [], _ => rfl
  | c :: cs, m => by simp [isPrefB, isPrefB_append cs m]

theorem strStarts_of_append (p y : String) : strStarts p (p ++ y) = true := by
  unfold strStarts
  rw [String.data_append]
  exact isPrefB_append p.data y.data

theorem joinSep_cons_decomp (sep x : String) (xs : List String) :
    ∃ y, joinSep sep (x :: xs) = x ++ y := by
  cases xs with
  | nil => exact ⟨"", (String.append_empty x).symm⟩
  | cons b bs =>
      refine ⟨sep ++ joinSep sep (b :: bs), ?_⟩
      show x ++ sep ++ joinSep sep (b :: bs) = _
      rw [String.append_assoc]

theorem renderThread_starts (k : String) (es : List EmailMsg) :
    ∃ y : String, renderThread k es = ("<thread id=\"" ++ k ++ "\">") ++ y := by
  refine ⟨"\n" ++ joinSep "\n" (es.map formatEmailXml) ++ "\n</thread>", ?_⟩
  unfold renderThread
  simp only [String.append_assoc]
  rw [show ∀ x : String, ("\">\n" : String) ++ x = "\">" ++ ("\n" ++ x) from
    fun x => by rw [← String.append_assoc]; rfl]

theorem insertGroup_head_key (acc : List (String × List EmailMsg)) (k : String) (e : EmailMsg)
    (hne : acc ≠ []) :
    (insertGroup acc k e).head?.map Prod.fst = acc.head?.map Prod.fst ∧
      insertGroup acc k e ≠ [] := by
  cases acc with
  | nil => exact absurd rfl hne
  | cons g rest =>
      obtain ⟨k', es⟩ := g
      unfold insertGroup
      by_cases h : k' = k
      · simp [h]
      · simp [h]

theorem foldl_insertGroup_head (l : List EmailMsg) :
    ∀ (acc : List (String × List EmailMsg)), acc ≠ [] →
      (l.foldl (fun acc e => insertGroup acc (effKey e) e) acc).head?.map Prod.fst =
          acc.head?.map Prod.fst ∧
        l.foldl (fun acc e => insertGroup acc (effKey e) e) acc ≠ [] := by
  induction l with
  | nil => exact fun acc h => ⟨rfl, h⟩
  | cons e es ih =>
      intro acc h
      simp only [List.foldl_cons]
      obtain ⟨h1, h2⟩ := insertGroup_head_key acc (effKey e) e h
      obtain ⟨h3, h4⟩ := ih _ h2
      exact ⟨h3.trans h1, h4⟩

theorem groupEmails_cons_head (e : EmailMsg) (rest : List EmailMsg) :
    ∃ es gs, groupEmails (e :: rest) = (effKey e, es) :: gs := by
  unfold groupEmails
  simp only [List.foldl_cons]
  have h0 : insertGroup [] (effKey e) e = [(effKey e, [e])] := rfl
  rw [h0]
  obtain ⟨h1, h2⟩ := foldl_insertGroup_head rest [(effKey e, [e])] (by simp)
  cases hg : rest.foldl (fun acc e => insertGroup acc (effKey e) e) [(effKey e, [e])] with
  | nil => exact absurd hg h2
  | cons g gs =>
      obtain ⟨kk, es⟩ := g
      rw [hg] at h1
      simp only [List.head?_cons, Option.map_some'] at h1
      injection h1 with h1
      exact ⟨es, gs, by rw [h1]⟩

/-- Claim C10: a message whose `threadId` is present but empty is treated
as having no `threadId`: it is grouped under its own `id`, and the
enclosing thread block's `id` attribute is the message's `id` (here shown
for the first-seen group, which such a message heads when it comes first). -/
theorem empty_threadId_grouped_by_id (e : EmailMsg) (h : e.threadId = some "") :
    effKey e = e.id ∧
    (∀ rest : List EmailMsg,
      (groupEmails (e :: rest)).head?.map Prod.fst = some e.id ∧
      strStarts ("<thread id=\"" ++ e.id ++ "\">") (formatEmailsForLLM (e :: rest)) = true) := by
  have hk : effKey e = e.id := by
    unfold effKey
    rw [h]
    simp
  refine ⟨hk, ?_⟩
  intro rest
  obtain ⟨es, gs, hg⟩ := groupEmails_cons_head e rest
  constructor
  · rw [hg]
    simp [hk]
  · unfold formatEmailsForLLM
    rw [hg]
    simp only [List.map_cons]
    obtain ⟨y, hy⟩ := joinSep_cons_decomp "\n\n"
      (renderThread (effKey e) (sortByTime es)) _
    rw [hy]
    obtain ⟨z, hz⟩ := renderThread_starts (effKey e) (sortByTime es)
    rw [hz, hk]
    have hfin := strStarts_of_append ("<thread id=\"" ++ e.id ++ "\">") (z ++ y)
    rw [← String.append_assoc] at hfin
    exact hfin

/-- Witness for claim C10 at a concrete message with `threadId = some ""`:
it is grouped and rendered under its own id. -/
theorem empty_threadId_grouped_by_id_witness :
    effKey emptyThreadMsg = "m9" ∧
    strStarts "<thread id=\"m9\">" (formatEmailsForLLM [emptyThreadMsg]) = true := by
  have h := empty_threadId_grouped_by_id emptyThreadMsg rfl
  exact ⟨h.1, (h.2 []).2⟩

/-! Lemmas for the XML escaping functions. -/

theorem replaceCharL_cons (c : Char) (rep : List Char) (x : Char) (xs : List Char) :
    replaceCharL c rep (x :: xs) = (if x = c then rep else [x]) ++ replaceCharL c rep xs := by
  simp [replaceCharL]

theorem replaceCharL_append (c : Char) (rep : List Char) (l1 l2 : List Char) :
    replaceCharL c rep (l1 ++ l2) = replaceCharL c rep l1 ++ replaceCharL c rep l2 := by
  simp [replaceCharL]

theorem escAttrPipe_eq : (l : List Char) →
    replaceCharL '>' "&gt;".data
      (replaceCharL '<' "&lt;".data
        (replaceCharL '"' "&quot;".data
          (replaceCharL '&' "&amp;".data l))) = (l.map escAttrChar).flatten
  | [] => rfl
  | x :: xs => by
      have ih := escAttrPipe_eq xs
      rw [replaceCharL_cons, replaceCharL_append, replaceCharL_append, replaceCharL_append]
      rw [List.map_cons, List.flatten_cons, ih]
      by_cases h1 : x = '&'
      · subst h1
        rfl
      · by_cases h2 : x = '"'
        · subst h2
          simp [h1, escAttrChar]
          rfl
        · by_cases h3 : x = '<'
          · subst h3
            simp [h1, h2, escAttrChar]
            rfl
          · by_cases h4 : x = '>'
            · subst h4
              simp [h1, h2, h3, escAttrChar]
              rfl
            · simp [replaceCharL, escAttrChar, h1, h2, h3, h4]

theorem escTextPipe_eq : (l : List Char) →
    replaceCharL '>' "&gt;".data
      (replaceCharL '<' "&lt;".data
        (replaceCharL '&' "&amp;".data l)) = (l.map escTextChar).flatten
  | [] => rfl
  | x :: xs => by
      have ih := escTextPipe_eq xs
      rw [replaceCharL_cons, replaceCharL_append, replaceCharL_append]
      rw [List.map_cons, List.flatten_cons, ih]
      by_cases h1 : x = '&'
      · subst h1
        rfl
      · by_cases h3 : x = '<'
        · subst h3
          simp [h1, escTextChar]
          rfl
        · by_cases h4 : x = '>'
          · subst h4
            simp [h1, h3, escTextChar]
            rfl
          · simp [replaceCharL, escTextChar, h1, h3, h4]

theorem flatten_map_any (p : Char → Bool) (f : Char → List Char) :
    (l : List Char) → ((l.map f).flatten).any p = l.any (fun x => (f x).any p)
  | [] => rfl
  | x :: xs => by
      simp [flatten_map_any p f xs]

theorem escAttrChar_no_raw (x : Char) :
    (escAttrChar x).any (fun c => c = '"' || c = '<' || c = '>') = false := by
  by_cases h1 : x = '&'
  · subst h1
    decide
  · by_cases h2 : x = '"'
    · subst h2
      decide
    · by_cases h3 : x = '<'
      · subst h3
        decide
      · by_cases h4 : x = '>'
        · subst h4
          decide
        · simp [escAttrChar, h1, h2, h3, h4]

theorem joinSep_last2 : (xs : List String) → xs ≠ [] → ∀ u v : String,
    ∃ pre, joinSep "\n" (xs ++ [u] ++ [v]) = pre ++ "\n" ++ u ++ "\n" ++ v
  | [], h => absurd rfl h
  | [x], _ => fun u v => by
      refine ⟨x, ?_⟩
      show x ++ "\n" ++ joinSep "\n" [u, v] = _
      show x ++ "\n" ++ (u ++ "\n" ++ v) = _
      simp only [String.append_assoc]
  | x :: y :: ys, _ => fun u v => by
      obtain ⟨pre, hp⟩ := joinSep_last2 (y :: ys) (by simp) u v
      refine ⟨x ++ "\n" ++ pre, ?_⟩
      show x ++ "\n" ++ joinSep "\n" ((y :: ys) ++ [u] ++ [v]) = _
      rw [hp]
      simp only [String.append_assoc]

/-- Claim C2 (amended): the email-block attribute values built through
`escapeXmlAttr` (the email `id`, address `name` and `email`) are escaped
for `&`, `"`, `<`, `>` (the escaper's output holds no raw `"`, `<`, `>`);
subject text is escaped through `escapeXmlText`, which maps `&`, `<`, `>`
but leaves `"` unchanged; the body is emitted exactly as the extractor
produced it with no further escaping; but the thread block's `id`
attribute is emitted raw, without escaping. -/
theorem attribute_escaping_rule :
    (∀ s : String, (escapeXmlAttr s).data = (s.data.map escAttrChar).flatten) ∧
    (∀ s : String,
      (escapeXmlAttr s).data.any (fun c => c = '"' || c = '<' || c = '>') = false) ∧
    (∀ s : String, (escapeXmlText s).data = (s.data.map escTextChar).flatten) ∧
    escTextChar '"' = ['"'] ∧
    (∀ e : EmailMsg, ∃ rest, emailAttrs e = ("id=\"" ++ escapeXmlAttr e.id ++ "\"") :: rest) ∧
    (∀ (n em : String), n ≠ "" → addressTag ⟨some n, em⟩ =
      "    <address" ++ (" name=\"" ++ escapeXmlAttr n ++ "\"") ++ " email=\"" ++
        escapeXmlAttr em ++ "\" />") ∧
    (∀ e : EmailMsg, ∃ pre, formatEmailXml e =
      pre ++ "\n" ++ ("  <body>\n" ++ getEmailBody e ++ "\n  </body>") ++ "\n" ++ "</email>") ∧
    (∀ (e : EmailMsg) (rest : List EmailMsg),
      strStarts ("<thread id=\"" ++ effKey e ++ "\">") (formatEmailsForLLM (e :: rest)) = true) := by
  refine ⟨?_, ?_, ?_, rfl, ?_, ?_, ?_, ?_⟩
  · exact fun s => escAttrPipe_eq s.data
  · intro s
    have h := escAttrPipe_eq s.data
    show (escapeXmlAttr s).data.any _ = false
    rw [show (escapeXmlAttr s).data =
      replaceCharL '>' "&gt;".data
        (replaceCharL '<' "&lt;".data
          (replaceCharL '"' "&quot;".data
            (replaceCharL '&' "&amp;".data s.data))) from rfl]
    rw [h, flatten_map_any]
    simp [escAttrChar_no_raw]
  · exact fun s => escTextPipe_eq s.data
  · exact fun e => ⟨_, rfl⟩
  · intro n em h
    show "    <address" ++ (if n = "" then "" else " name=\"" ++ escapeXmlAttr n ++ "\"") ++
      " email=\"" ++ escapeXmlAttr em ++ "\" />" = _
    rw [if_neg h]
  · intro e
    exact joinSep_last2 _ (by simp) _ _
  · intro e rest
    obtain ⟨es, gs, hg⟩ := groupEmails_cons_head e rest
    unfold formatEmailsForLLM
    rw [hg]
    simp only [List.map_cons]
    obtain ⟨y, hy⟩ := joinSep_cons_decomp "\n\n"
      (renderThread (effKey e) (sortByTime es)) _
    rw [hy]
    obtain ⟨z, hz⟩ := renderThread_starts (effKey e) (sortByTime es)
    rw [hz]
    have hfin := strStarts_of_append ("<thread id=\"" ++ effKey e ++ "\">") (z ++ y)
    rw [← String.append_assoc] at hfin
    exact hfin

/-- Witness for claim C2 (amended) at concrete values: escaping a quoted
name, and the body/address conjuncts instantiated. -/
theorem attribute_escaping_rule_witness :
    addressTag ⟨some "A\"B", "a@b"⟩ =
      "    <address" ++ (" name=\"" ++ escapeXmlAttr "A\"B" ++ "\"") ++ " email=\"" ++
        escapeXmlAttr "a@b" ++ "\" />" ∧
    (escapeXmlAttr "A\"B").data.any (fun c => c = '"' || c = '<' || c = '>') = false := by
  constructor
  · exact attribute_escaping_rule.2.2.2.2.2.1 "A\"B" "a@b" (by decide)
  · exact attribute_escaping_rule.2.1 "A\"B"

/-- Claim C2 counterexample: a `threadId` containing a double quote is
emitted raw in the thread block's `id` attribute — the output contains the
unescaped `id="a"b"` and no `&quot;` entity. -/
theorem thread_id_not_escaped_counterexample :
    substrB "<thread id=\"a\"b\">" (formatEmailsForLLM [quotedThreadMsg]) = true ∧
    substrB "a&quot;b" (formatEmailsForLLM [quotedThreadMsg]) = false ∧
    formatEmailsForLLM [quotedThreadMsg] =
      "<thread id=\"a\"b\">\n<email id=\"m1\" status=\"unread\">\n  <body>\n\n  </body>\n</email>\n</thread>" :=
  ⟨by decide, by decide, by decide⟩

/-! Lemmas for the thread map: the insertion-ordered grouping equals the
first-seen-keys/filter description. -/

theorem groupEmails_append_singleton (l : List EmailMsg) (e : EmailMsg) :
    groupEmails (l ++ [e]) = insertGroup (groupEmails l) (effKey e) e := by
  unfold groupEmails
  rw [List.foldl_append]
  rfl

theorem seenKeys_append_singleton (l : List EmailMsg) (e : EmailMsg) :
    seenKeys (l ++ [e]) =
      if (seenKeys l).contains (effKey e) then seenKeys l
      else seenKeys l ++ [effKey e] := by
  unfold seenKeys
  rw [List.foldl_append]
  rfl

theorem seenKeys_step_mono (l : List EmailMsg) :
    ∀ (acc : List String) (k : String), k ∈ acc →
      k ∈ l.foldl (fun acc e => if acc.contains (effKey e) then acc else acc ++ [effKey e]) acc := by
  induction l with
  | nil => exact fun acc k h => h
  | cons e es ih =>
      intro acc k h
      simp only [List.foldl_cons]
      apply ih
      by_cases hc : acc.contains (effKey e)
      · rw [if_pos hc]
        exact h
      · rw [if_neg hc]
        exact List.mem_append_left _ h

theorem mem_seenKeys_of_mem (l : List EmailMsg) (e : EmailMsg) (he : e ∈ l) :
    effKey e ∈ seenKeys l := by
  unfold seenKeys
  induction l generalizing e with
  | nil => simp at he
  | cons x xs ih =>
      rcases List.mem_cons.mp he with h | h
      · subst h
        simp only [List.foldl_cons]
        apply seenKeys_step_mono
        by_cases hc : ([] : List String).contains (effKey e)
        · simp at hc
        · rw [if_neg hc]
          simp
      · -- e is in the tail; transfer from the [] accumulator to the stepped one
        simp only [List.foldl_cons]
        have hgen : ∀ (acc : List String),
            effKey e ∈ xs.foldl
              (fun acc e => if acc.contains (effKey e) then acc else acc ++ [effKey e]) acc ∨
            effKey e ∈ acc → True := fun _ _ => trivial
        clear hgen
        -- prove a general membership statement by a fresh induction
        have key : ∀ (ms : List EmailMsg) (acc : List String) (m : EmailMsg), m ∈ ms →
            effKey m ∈ ms.foldl
              (fun acc e => if acc.contains (effKey e) then acc else acc ++ [effKey e]) acc := by
          intro ms
          induction ms with
          | nil => intro acc m hm; simp at hm
          | cons y ys ihy =>
              intro acc m hm
              rcases List.mem_cons.mp hm with h' | h'
              · subst h'
                simp only [List.foldl_cons]
                apply seenKeys_step_mono
                by_cases hc : acc.contains (effKey m)
                · rw [if_pos hc]
                  simpa using hc
                · rw [if_neg hc]
                  exact List.mem_append_right _ (by simp)
              · simp only [List.foldl_cons]
                exact ihy _ m h'
        exact key (x :: xs) [] e he

theorem nodup_seenKeys (l : List EmailMsg) : (seenKeys l).Nodup := by
  unfold seenKeys
  have key : ∀ (ms : List EmailMsg) (acc : List String), acc.Nodup →
      (ms.foldl
        (fun acc e => if acc.contains (effKey e) then acc else acc ++ [effKey e]) acc).Nodup := by
    intro ms
    induction ms with
    | nil => exact fun acc h => h
    | cons e es ih =>
        intro acc h
        simp only [List.foldl_cons]
        apply ih
        by_cases hc : acc.contains (effKey e)
        · rw [if_pos hc]
          exact h
        · rw [if_neg hc]
          have hnm : effKey e ∉ acc := by simpa using hc
          simp [List.nodup_append, h, hnm]
  exact key l [] List.nodup_nil

theorem insertGroup_not_mem (keys : List String) (f : String → List EmailMsg)
    (k0 : String) (e : EmailMsg) (h : k0 ∉ keys) :
    insertGroup (keys.map (fun k => (k, f k))) k0 e =
      keys.map (fun k => (k, f k)) ++ [(k0, [e])] := by
  induction keys with
  | nil => rfl
  | cons k ks ih =>
      have hne : k ≠ k0 := fun hc => h (hc ▸ List.mem_cons_self k ks)
      simp only [List.map_cons, insertGroup, if_neg hne, List.cons_append]
      rw [ih (fun hc => h (List.mem_cons_of_mem k hc))]

theorem insertGroup_mem_nodup (keys : List String) (f : String → List EmailMsg)
    (k0 : String) (e : EmailMsg) (hnd : keys.Nodup) (h : k0 ∈ keys) :
    insertGroup (keys.map (fun k => (k, f k))) k0 e =
      keys.map (fun k => (k, if k = k0 then f k ++ [e] else f k)) := by
  induction keys with
  | nil => simp at h
  | cons k ks ih =>
      rcases List.nodup_cons.mp hnd with ⟨hknm, hndks⟩
      by_cases hk : k = k0
      · subst hk
        have h1 : insertGroup ((k, f k) :: List.map (fun k => (k, f k)) ks) k e =
            (k, f k ++ [e]) :: List.map (fun k => (k, f k)) ks := by
          unfold insertGroup
          rw [if_pos rfl]
        rw [List.map_cons, h1, List.map_cons, if_pos rfl]
        congr 1
        apply List.map_congr_left
        intro k' hk'
        have hne : k' ≠ k := fun hc => hknm (hc ▸ hk')
        simp [hne]
      · rcases List.mem_cons.mp h with h' | h'
        · exact absurd h'.symm hk
        · simp only [List.map_cons, insertGroup, if_neg hk]
          rw [ih hndks h']

theorem groupEmails_eq (emails : List EmailMsg) :
    groupEmails emails = (seenKeys emails).map
      (fun k => (k, emails.filter (fun e => effKey e == k))) := by
  induction emails using List.reverseRecOn with
  | nil => rfl
  | append_singleton l e ih =>
      rw [groupEmails_append_singleton, ih, seenKeys_append_singleton]
      by_cases hk : (seenKeys l).contains (effKey e)
      · rw [if_pos hk]
        have hmem : effKey e ∈ seenKeys l := by simpa using hk
        rw [insertGroup_mem_nodup _ _ _ _ (nodup_seenKeys l) hmem]
        apply List.map_congr_left
        intro k hkmem
        rw [List.filter_append]
        by_cases he : k = effKey e
        · subst he
          simp
        · have hbe : (effKey e == k) = false :=
            beq_eq_false_iff_ne.mpr (fun hc => he hc.symm)
          simp [he, hbe]
      · rw [if_neg hk]
        have hnmem : effKey e ∉ seenKeys l := by simpa using hk
        rw [insertGroup_not_mem _ _ _ _ hnmem]
        rw [List.map_append]
        congr 1
        · apply List.map_congr_left
          intro k hkmem
          rw [List.filter_append]
          have hne : k ≠ effKey e := fun h => hnmem (h ▸ hkmem)
          have hbe : (effKey e == k) = false :=
            beq_eq_false_iff_ne.mpr (fun hc => hne hc.symm)
          simp [hbe]
        · have hfl : l.filter (fun e' => effKey e' == effKey e) = [] := by
            cases hf : l.filter (fun e' => effKey e' == effKey e) with
            | nil => rfl
            | cons a as =>
                have ha : a ∈ l.filter (fun e' => effKey e' == effKey e) := by
                  rw [hf]
                  exact List.mem_cons_self a as
                rcases List.mem_filter.mp ha with ⟨hal, hae⟩
                have : effKey a = effKey e := by simpa using hae
                exact absurd (this ▸ mem_seenKeys_of_mem l a hal) hnmem
          simp [List.filter_append, hfl]

/-! Lemmas for the within-thread stable sort. -/

theorem mem_insertByTime (e y : EmailMsg) :
    (l : List EmailMsg) → (y ∈ insertByTime e l ↔ y = e ∨ y ∈ l)
  | [] => by simp [insertByTime]
  | x :: xs => by
      by_cases hc : effTime x ≤ effTime e
      · simp only [insertByTime, if_pos hc, List.mem_cons, mem_insertByTime e y xs]
        tauto
      · simp only [insertByTime, if_neg hc, List.mem_cons]

theorem insertByTime_pairwise (e : EmailMsg) (l : List EmailMsg)
    (h : l.Pairwise (fun a b => effTime a ≤ effTime b)) :
    (insertByTime e l).Pairwise (fun a b => effTime a ≤ effTime b) := by
  induction l with
  | nil => simp [insertByTime]
  | cons x xs ih =>
      rcases List.pairwise_cons.mp h with ⟨hx, hxs⟩
      by_cases hc : effTime x ≤ effTime e
      · simp only [insertByTime, if_pos hc]
        rw [List.pairwise_cons]
        constructor
        · intro y hy
          rcases (mem_insertByTime e y xs).mp hy with hy | hy
          · subst hy
            exact hc
          · exact hx y hy
        · exact ih hxs
      · simp only [insertByTime, if_neg hc]
        rw [List.pairwise_cons]
        constructor
        · intro y hy
          rcases List.mem_cons.mp hy with hy | hy
          · subst hy
            omega
          · have := hx y hy
            omega
        · exact h

theorem insertByTime_filter_time (e : EmailMsg) (t : Int) :
    (l : List EmailMsg) → l.Pairwise (fun a b => effTime a ≤ effTime b) →
    (insertByTime e l).filter (fun x => effTime x == t) =
      l.filter (fun x => effTime x == t) ++ (if effTime e == t then [e] else []) := by
  intro l
  induction l with
  | nil =>
      intro _
      simp [insertByTime, List.filter_cons]
  | cons x xs ih =>
      intro h
      rcases List.pairwise_cons.mp h with ⟨hx, hxs⟩
      by_cases hc : effTime x ≤ effTime e
      · simp only [insertByTime, if_pos hc]
        rw [List.filter_cons, List.filter_cons, ih hxs]
        by_cases hxt : (effTime x == t) = true
        · simp [hxt]
        · simp only [Bool.not_eq_true] at hxt
          simp [hxt]
      · simp only [insertByTime, if_neg hc]
        rw [List.filter_cons]
        by_cases het : (effTime e == t) = true
        · have heq : effTime e = t := by simpa using het
          have hgt : t < effTime x := by omega
          have hnil : (x :: xs).filter (fun y => effTime y == t) = [] := by
            rw [List.filter_eq_nil_iff]
            intro a ha
            rcases List.mem_cons.mp ha with ha | ha
            · subst ha
              simp only [beq_iff_eq]
              omega
            · have := hx a ha
              simp only [beq_iff_eq]
              omega
          rw [hnil]
          simp [het]
        · simp only [Bool.not_eq_true] at het
          simp [het]

theorem sortByTime_foldl_props (l : List EmailMsg) :
    ∀ (acc : List EmailMsg), acc.Pairwise (fun a b => effTime a ≤ effTime b) →
      (l.foldl (fun acc e => insertByTime e acc) acc).Pairwise
        (fun a b => effTime a ≤ effTime b) ∧
      ∀ t : Int,
        (l.foldl (fun acc e => insertByTime e acc) acc).filter (fun x => effTime x == t) =
          acc.filter (fun x => effTime x == t) ++ l.filter (fun x => effTime x == t) := by
  induction l with
  | nil =>
      intro acc h
      exact ⟨h, fun t => by simp⟩
  | cons e es ih =>
      intro acc h
      simp only [List.foldl_cons]
      obtain ⟨h1, h2⟩ := ih (insertByTime e acc) (insertByTime_pairwise e acc h)
      refine ⟨h1, fun t => ?_⟩
      rw [h2 t, insertByTime_filter_time e t acc h, List.filter_cons]
      by_cases het : (effTime e == t) = true
      · simp [het, List.append_assoc]
      · simp only [Bool.not_eq_true] at het
        simp [het]

/-- Claim C6: the formatter partitions messages into groups keyed by the
effective thread id in first-seen order (each group holding exactly the
input-order messages with that key), and sorts each group ascending by
effective timestamp with a stable sort — messages of equal effective
timestamp keep their original input order, expressed as: filtering any
equal-time class out of the sorted group returns it in input order. -/
theorem thread_grouping_and_order (emails : List EmailMsg) :
    groupEmails emails = (seenKeys emails).map
      (fun k => (k, emails.filter (fun e => effKey e == k))) ∧
    (∀ l : List EmailMsg,
      (sortByTime l).Pairwise (fun a b => effTime a ≤ effTime b)) ∧
    (∀ (l : List EmailMsg) (t : Int),
      (sortByTime l).filter (fun x => effTime x == t) =
        l.filter (fun x => effTime x == t)) ∧
    formatEmailsForLLM emails = joinSep "\n\n" ((groupEmails emails).map
      (fun g => renderThread g.1 (sortByTime g.2))) := by
  refine ⟨groupEmails_eq emails, ?_, ?_, ?_⟩
  · intro l
    exact (sortByTime_foldl_props l [] (by simp)).1
  · intro l t
    have h := (sortByTime_foldl_props l [] (by simp)).2 t
    simpa using h
  · show joinSep "\n\n" (List.map (fun g => renderThread g.1 g.2)
      (List.map (fun g => (g.1, sortByTime g.2)) (groupEmails emails))) = _
    rw [List.map_map]
    rfl

end FastmailFormat
